import Mathlib

/-!
Shallow embedding of the ndarray core (src/cpp/ndarray.cpp).

Element type is Int (the instantiation used by the program, ndarray of int).
A cell (a boxed, shared scalar in the source: shared_ptr of T) is modelled
as an index into a Store; an array is a shape together with a flat list of
cell ids, exactly mirroring the pair (shape_, data_) of the source class.
Operations that allocate cells thread the Store explicitly; operations that
may throw return Except. Functions keep the source names, including the
misspelled braodcast.
-/

deriving instance DecidableEq for Except

namespace NdArray

/-- Error kinds of the source: Error of IndexError, TypeError, ValueError. -/
inductive Err where
  | indexError
  | typeError
  | valueError
deriving DecidableEq, Repr

/-- The Operator enum of the source: OP_ADD, OP_SUB, OP_MUL, OP_DIV. -/
inductive Op where
  | add
  | sub
  | mul
  | div
deriving DecidableEq, Repr

/-- The arena of cells: cell id i holds value vals at position i.
A shared_ptr cell of the source is one slot here; sharing a cell is
holding the same id. -/
structure Store where
  vals : List Int
deriving DecidableEq, Repr

/-- Dereference a cell (star data at i in the source). -/
def Store.get (st : Store) (i : Nat) : Int :=
  st.vals.getD i 0

/-- Overwrite the value stored inside a cell (star data at i = v). -/
def Store.set (st : Store) (i : Nat) (v : Int) : Store :=
  ⟨st.vals.set i v⟩

/-- The array: shape_ and data_ members of the source class, with data_
a list of cell ids instead of shared_ptr values. -/
structure Arr where
  shape : List Nat
  cells : List Nat
deriving DecidableEq, Repr

instance : Inhabited Arr := ⟨⟨[], []⟩⟩

/-- get_size of the source: accumulate over the shape with multiplies,
initial value 1. -/
def get_size (shape : List Nat) : Nat :=
  shape.foldl (fun a b => a * b) 1

/-- get_shape of the source: empty input gives an empty shape; a shape
disagreement among siblings gives an empty shape (soft failure); otherwise
the count is prepended to the common sub-shape. -/
def get_shape (subs : List Arr) : List Nat :=
  match subs with
  | [] => []
  | a0 :: _ =>
    if subs.all fun s => decide (s.shape = a0.shape) then subs.length :: a0.shape
    else []

/-- flatten_data of the source: concatenate the cell sequences of the
sub-arrays in order (same cell ids, shared). -/
def flatten_data (subs : List Arr) : List Nat :=
  (subs.map Arr.cells).flatten

/-- transform_data of the source: allocate one brand-new cell per value.
Fresh ids start at the current store length. -/
def transform_data (vals : List Int) (st : Store) : List Nat × Store :=
  (List.range' st.vals.length vals.length, ⟨st.vals ++ vals⟩)

/-- Fuel-counted recursion for expand_data: each step consumes one group
of n elements of the remaining data, so a fuel of the data length always
suffices (with positive n a nonempty list loses at least one element per
step). Fuel keeps the recursion structural. -/
def expand_data_go : Nat → List Nat → Nat → Nat → List Nat
  | 0, _, _, _ => []
  | _, [], _, _ => []
  | fuel + 1, x :: xs, n, k =>
    if n = 0 then []
    else (List.replicate k ((x :: xs).take n)).flatten ++ expand_data_go fuel ((x :: xs).drop n) n k

/-- expand_data of the source: repeat data groups of n elements k times.
The source loop advances by n; with n = 0 and nonempty data the source
would not terminate, a case unreachable from braodcast (there n divides
the data length), so it is mapped to the empty list. -/
def expand_data (old : List Nat) (n k : Nat) : List Nat :=
  expand_data_go old.length old n k

/-- Pad a (reversed) shape with trailing 1 entries: the source walk reads
dimension 1 once an iterator is exhausted. -/
def padOnes (l : List Nat) (n : Nat) : List Nat :=
  l ++ List.replicate (n - l.length) 1

/-- The loop body of braodcast in the source, one step per aligned axis
pair, walking trailing-first. dims pairs (ldim, rdim); lsize and rsize are
the running products of the processed (aligned) dimensions; the returned
shape list is in processed (trailing-first) order, reversed by the
wrapper, exactly as the source pushes then reverses. -/
def braodcastRev (mutbl : Bool) :
    List (Nat × Nat) → List Nat → List Nat → Nat → Nat →
    Option (List Nat × List Nat × List Nat)
  | [], ldata, rdata, _, _ => some (ldata, rdata, [])
  | (ldim, rdim) :: dims, ldata, rdata, lsize, rsize =>
    if ldim = rdim then
      match braodcastRev mutbl dims ldata rdata (lsize * ldim) (rsize * rdim) with
      | none => none
      | some (l, r, sh) => some (l, r, ldim :: sh)
    else if rdim = 1 then
      match braodcastRev mutbl dims ldata (expand_data rdata rsize ldim) (lsize * ldim) (rsize * ldim) with
      | none => none
      | some (l, r, sh) => some (l, r, ldim :: sh)
    else if mutbl ∧ ldim = 1 then
      match braodcastRev mutbl dims (expand_data ldata lsize rdim) rdata (lsize * rdim) (rsize * rdim) with
      | none => none
      | some (l, r, sh) => some (l, r, rdim :: sh)
    else none

/-- braodcast of the source (name kept as written there): walk both shapes
from the trailing axis backward, a missing leading axis read as size 1,
expanding whichever side the rules allow; is_lhs_mutable = mutbl gates the
left-side expansion. Returns the expanded data sequences and the aligned
shape, or none on incompatible non-1 dimensions. -/
def braodcast (lshape rshape : List Nat) (mutbl : Bool) (ldata rdata : List Nat) :
    Option (List Nat × List Nat × List Nat) :=
  match braodcastRev mutbl
      ((padOnes lshape.reverse (max lshape.reverse.length rshape.reverse.length)).zip
       (padOnes rshape.reverse (max lshape.reverse.length rshape.reverse.length)))
      ldata rdata 1 1 with
  | none => none
  | some (lc, rc, sh) => some (lc, rc, sh.reverse)

/-- arange of the source: shape with the single entry n, one fresh cell
per value start, start+1, ... -/
def arange (n : Nat) (start : Int) (st : Store) : Arr × Store :=
  match transform_data ((List.range n).map fun i => start + Int.ofNat i) st with
  | (ids, st') => (⟨[n], ids⟩, st')

/-- scalar of the source: empty shape, one fresh cell. -/
def scalar (v : Int) (st : Store) : Arr × Store :=
  match transform_data [v] st with
  | (ids, st') => (⟨[], ids⟩, st')

/-- full of the source: the given shape, product-of-shape fresh cells all
holding the fill value. -/
def full (shape : List Nat) (v : Int) (st : Store) : Arr × Store :=
  match transform_data (List.replicate (get_size shape) v) st with
  | (ids, st') => (⟨shape, ids⟩, st')

/-- The flat literal constructor of the source: shape is the count, one
fresh cell per literal value. -/
def ofVals (vals : List Int) (st : Store) : Arr × Store :=
  match transform_data vals st with
  | (ids, st') => (⟨[vals.length], ids⟩, st')

/-- The nested literal constructor of the source: on a sibling shape
mismatch (or an empty flattened cell list) the members keep their
default-initialized values, an empty shape and an empty cell list; no
exception is thrown. The sub-array cells are shared, not copied. -/
def ofList (subs : List Arr) : Arr :=
  match get_shape subs with
  | [] => ⟨[], []⟩
  | d :: sh =>
    match flatten_data subs with
    | [] => ⟨[], []⟩
    | c :: cs => ⟨d :: sh, c :: cs⟩

/-- The default constructor of the source: shape_ is the one-entry list 0. -/
def defaultArr : Arr :=
  ⟨[0], []⟩

/-- len of the source: throws a TypeError on a rank-0 array, otherwise the
front entry of the shape. -/
def Arr.len (a : Arr) : Except Err Nat :=
  if a.shape.length = 0 then .error .typeError
  else .ok (a.shape.headD 0)

/-- ndim of the source. -/
def Arr.ndim (a : Arr) : Nat :=
  a.shape.length

/-- size of the source: the length of the cell list. -/
def Arr.size (a : Arr) : Nat :=
  a.cells.length

/-- reshape of the source: compares the product of the current shape with
the product of the new shape; on mismatch throws a ValueError, otherwise
returns an array with the new shape and the same cell ids (a view). -/
def reshape (a : Arr) (newShape : List Nat) : Except Err Arr :=
  if get_size a.shape ≠ get_size newShape then .error .valueError
  else .ok ⟨newShape, a.cells⟩

/-- astype of the source, at the identity element conversion: one brand-new
cell per existing cell, holding the converted (here: same) value. -/
def astype (a : Arr) (st : Store) : Arr × Store :=
  match transform_data (a.cells.map fun i => st.get i) st with
  | (ids, st') => (⟨a.shape, ids⟩, st')

/-- Scalar conversion (operator T of the source): a TypeError unless the
size is exactly 1, otherwise the front cell's value. -/
def toScalar (a : Arr) (st : Store) : Except Err Int :=
  if a.cells.length ≠ 1 then .error .typeError
  else .ok (st.get (a.cells.headD 0))

/-- resolve_index of the source: an IndexError on a rank-0 array; with
verify set, an IndexError when the raw index falls outside the interval
from -len to len (right end excluded); a negative index resolves by
adding the axis length. -/
def resolve_index (a : Arr) (index : Int) (verify : Bool) : Except Err Int :=
  if a.shape.length = 0 then .error .indexError
  else
    if verify ∧ (index < -((a.shape.headD 0 : Nat) : Int) ∨ ((a.shape.headD 0 : Nat) : Int) ≤ index)
    then .error .indexError
    else .ok (if index < 0 then index + ((a.shape.headD 0 : Nat) : Int) else index)

/-- operator bracket of the source: resolve (with bounds check), drop the
leading axis, take the contiguous block of product-of-remaining-shape cell
ids at the resolved offset (same ids: a view). -/
def index (a : Arr) (i : Int) : Except Err Arr :=
  match resolve_index a i true with
  | .error e => .error e
  | .ok idx =>
    .ok ⟨a.shape.tail,
      (a.cells.drop (idx.toNat * get_size a.shape.tail)).take (get_size a.shape.tail)⟩

/-- A slice argument of the source: either a single integer index or a
range pair. -/
inductive Selector where
  | idx (i : Int)
  | range (s e : Int)
deriving DecidableEq, Repr

/-- Run an Except-valued function over a list, stopping at the first
error (the loop of the range branch of slice_impl, which would propagate
a thrown exception). -/
def exceptMap (f : Int → Except Err Arr) : List Int → Except Err (List Arr)
  | [] => .ok []
  | i :: is =>
    match f i with
    | .error e => .error e
    | .ok x =>
      match exceptMap f is with
      | .error e => .error e
      | .ok xs => .ok (x :: xs)

/-- slice_impl of the source. The integer branch is operator bracket
followed by slice on the rest (slice being the argument-count check plus
slice_impl). The range branch clamps the resolved begin below by 0 and
the resolved end above by len, collects the per-index sub-slices, and
rebuilds via get_shape and flatten_data; when get_shape or flatten_data
comes back empty it returns a default-constructed array (shape the
one-entry list 0). The loop body repeats the integer branch inline, as
the source call slice_impl(begin, args...) unfolds to it. -/
def slice_impl (a : Arr) : List Selector → Except Err Arr
  | [] => .ok a
  | .idx i :: rest =>
    match index a i with
    | .error e => .error e
    | .ok sub =>
      if rest.length > sub.shape.length then .error .indexError
      else slice_impl sub rest
  | .range s e :: rest =>
    match resolve_index a s false with
    | .error er => .error er
    | .ok rb =>
      match resolve_index a e false with
      | .error er => .error er
      | .ok re =>
        match exceptMap (fun i =>
            match index a i with
            | .error er => .error er
            | .ok sub =>
              if rest.length > sub.shape.length then .error .indexError
              else slice_impl sub rest)
          ((List.range (min ((a.shape.headD 0 : Nat) : Int) re - max 0 rb).toNat).map
            fun k => max 0 rb + Int.ofNat k) with
        | .error er => .error er
        | .ok slices =>
          match get_shape slices with
          | [] => .ok defaultArr
          | d :: sh =>
            match flatten_data slices with
            | [] => .ok defaultArr
            | c :: cs => .ok ⟨d :: sh, c :: cs⟩

/-- slice of the source: an IndexError when more arguments than the rank,
otherwise slice_impl. -/
def slice (a : Arr) (args : List Selector) : Except Err Arr :=
  if args.length > a.shape.length then .error .indexError
  else slice_impl a args

/-- The elementwise operator of the four-case switch of the source.
OP_DIV is the native int division of the element type (truncation toward
zero). -/
def applyOp : Op → Int → Int → Int
  | .add, x, y => x + y
  | .sub, x, y => x - y
  | .mul, x, y => x * y
  | .div, x, y => Int.tdiv x y

/-- operator_impl of the source: broadcast with is_lhs_mutable true; on
failure a ValueError is thrown before anything is allocated (the store is
returned unchanged); on success one brand-new cell per aligned position,
holding the operator applied to the dereferenced aligned values. -/
def operator_impl (a b : Arr) (op : Op) (st : Store) : Except Err Arr × Store :=
  match braodcast a.shape b.shape true a.cells b.cells with
  | none => (.error .valueError, st)
  | some (lc, rc, sh) =>
    match transform_data ((lc.zip rc).map fun p => applyOp op (st.get p.1) (st.get p.2)) st with
    | (ids, st') => (.ok ⟨sh, ids⟩, st')

/-- The public binary operator add of the source. -/
def addArr (a b : Arr) (st : Store) : Except Err Arr × Store :=
  operator_impl a b .add st

/-- The public binary operator sub of the source. -/
def subArr (a b : Arr) (st : Store) : Except Err Arr × Store :=
  operator_impl a b .sub st

/-- The public binary operator mul of the source. -/
def mulArr (a b : Arr) (st : Store) : Except Err Arr × Store :=
  operator_impl a b .mul st

/-- The public binary operator div of the source. -/
def divArr (a b : Arr) (st : Store) : Except Err Arr × Store :=
  operator_impl a b .div st

/-- Unary negation of the source: multiplication by the scalar -1. -/
def negArr (a : Arr) (st : Store) : Except Err Arr × Store :=
  match scalar (-1) st with
  | (m, st1) => operator_impl a m .mul st1

/-- The assignment write loop of the source: for each position, overwrite
the value inside the target cell with the dereferenced right-hand value,
sequentially from position 0. -/
def writeCells : Store → List Nat → List Nat → Store
  | st, t :: ts, r :: rs => writeCells (st.set t (st.get r)) ts rs
  | st, _, _ => st

/-- operator= of the source: broadcast with is_lhs_mutable false; on
failure a ValueError is thrown before any write (the store is returned
unchanged); on success each target cell is overwritten in place with the
dereferenced broadcast right-hand value. Neither shape_ nor the cell-id
container of the target is ever touched: the result is only a store. -/
def assign (target rhs : Arr) (st : Store) : Except Err Unit × Store :=
  match braodcast target.shape rhs.shape false target.cells rhs.cells with
  | none => (.error .valueError, st)
  | some (_, rc, _) => (.ok (), writeCells st target.cells rc)

/-- The array invariant of the spec: the cell count equals the product of
the shape. -/
def Arr.Valid (a : Arr) : Prop :=
  a.cells.length = get_size a.shape

/-- Every cell id of the array denotes an allocated slot of the store. -/
def Store.ValidIn (st : Store) (a : Arr) : Prop :=
  ∀ id ∈ a.cells, id < st.vals.length

/-- Modelled from the spec (section 4.1): the assignment alignment
condition in the spec's words, for comparison with the braodcast
implementation. The right-hand shape aligns to the target shape when,
walking from the trailing axis backward with a missing leading axis read
as size 1, every right-hand dimension equals the target dimension or is
1 (only the right side may grow). -/
def specAssignCompat (lshape rshape : List Nat) : Prop :=
  ∀ k < max lshape.length rshape.length,
    rshape.reverse.getD k 1 = lshape.reverse.getD k 1 ∨ rshape.reverse.getD k 1 = 1

instance (lshape rshape : List Nat) : Decidable (specAssignCompat lshape rshape) := by
  unfold specAssignCompat
  infer_instance

instance (a : Arr) : Decidable a.Valid := by
  unfold Arr.Valid
  infer_instance

instance (st : Store) (a : Arr) : Decidable (st.ValidIn a) := by
  unfold Store.ValidIn
  infer_instance

/-! Helper lemmas about the embedded definitions. -/

theorem get_size_eq_prod (s : List Nat) : get_size s = s.prod := by
  rw [get_size, List.prod_eq_foldl]

theorem get_size_nil : get_size [] = 1 := rfl

theorem get_size_cons (d : Nat) (s : List Nat) : get_size (d :: s) = d * get_size s := by
  simp [get_size_eq_prod]

theorem get_size_append (s t : List Nat) : get_size (s ++ t) = get_size s * get_size t := by
  simp [get_size_eq_prod, List.prod_append]

theorem get_size_reverse (s : List Nat) : get_size s.reverse = get_size s := by
  simp [get_size_eq_prod, List.prod_reverse]

theorem get_size_replicate_one (n : Nat) : get_size (List.replicate n 1) = 1 := by
  simp [get_size_eq_prod, List.prod_replicate]

theorem get_size_padOnes (l : List Nat) (n : Nat) : get_size (padOnes l n) = get_size l := by
  simp [padOnes, get_size_append, get_size_replicate_one]

theorem padOnes_length (l : List Nat) (n : Nat) (h : l.length ≤ n) :
    (padOnes l n).length = n := by
  simp [padOnes]
  omega

theorem padOnes_getD_one (l : List Nat) (n k : Nat) :
    (padOnes l n).getD k 1 = l.getD k 1 := by
  unfold padOnes
  rcases lt_or_ge k l.length with h | h
  · rw [List.getD_append _ _ _ _ h]
  · rw [List.getD_append_right _ _ _ _ h]
    rcases lt_or_ge (k - l.length) (n - l.length) with h2 | h2
    · rw [List.getD_eq_getElem _ _ (by simpa using h2), List.getElem_replicate]
      rw [List.getD_eq_default _ _ (by omega)]
    · rw [List.getD_eq_default _ _ (by simpa using h2), List.getD_eq_default _ _ (by omega)]

theorem store_get_set_self (st : Store) (i : Nat) (v : Int) (h : i < st.vals.length) :
    (st.set i v).get i = v := by
  simp [Store.set, Store.get, List.getD_eq_getElem?_getD, List.getElem?_set_self h]

theorem store_get_set_ne (st : Store) (i j : Nat) (v : Int) (h : i ≠ j) :
    (st.set i v).get j = st.get j := by
  simp [Store.set, Store.get, List.getD_eq_getElem?_getD, List.getElem?_set_ne h]

theorem store_length_set (st : Store) (i : Nat) (v : Int) :
    (st.set i v).vals.length = st.vals.length := by
  simp [Store.set]

theorem transform_data_snd (vals : List Int) (st : Store) :
    (transform_data vals st).2.vals = st.vals ++ vals := rfl

theorem transform_data_fst (vals : List Int) (st : Store) :
    (transform_data vals st).1 = List.range' st.vals.length vals.length := rfl

theorem transform_data_get_old (vals : List Int) (st : Store) (i : Nat)
    (h : i < st.vals.length) :
    (transform_data vals st).2.get i = st.get i := by
  simp only [Store.get, transform_data_snd]
  rw [List.getD_append _ _ _ _ h]

theorem transform_data_get_new (vals : List Int) (st : Store) (k : Nat) :
    (transform_data vals st).2.get (st.vals.length + k) = vals.getD k 0 := by
  simp only [Store.get, transform_data_snd]
  rw [List.getD_append_right _ _ _ _ (by omega)]
  congr 1
  omega

theorem expand_data_go_length (fuel : Nat) (old : List Nat) (n k : Nat)
    (hf : old.length ≤ fuel) (hd : n ∣ old.length) :
    (expand_data_go fuel old n k).length = old.length * k := by
  induction fuel generalizing old with
  | zero =>
    have : old = [] := List.eq_nil_of_length_eq_zero (by omega)
    subst this
    simp [expand_data_go]
  | succ m ih =>
    match old with
    | [] => simp [expand_data_go]
    | x :: xs =>
      rw [expand_data_go]
      have hlen : (x :: xs).length = xs.length + 1 := by simp
      by_cases hn : n = 0
      · subst hn
        have : (x :: xs).length = 0 := Nat.eq_zero_of_zero_dvd hd
        simp at this
      · simp only [if_neg hn]
        have hnpos : 0 < n := Nat.pos_of_ne_zero hn
        have hle : n ≤ (x :: xs).length := Nat.le_of_dvd (by simp) hd
        have hdrop : ((x :: xs).drop n).length = (x :: xs).length - n := by
          simp [List.length_drop]
        have hd2 : n ∣ ((x :: xs).drop n).length := by
          rw [hdrop]
          exact Nat.dvd_sub' hd (Nat.dvd_refl n)
        have hf2 : ((x :: xs).drop n).length ≤ m := by
          rw [hdrop]
          omega
        rw [List.length_append, ih _ hf2 hd2, hdrop]
        have htake : ((x :: xs).take n).length = n := by
          simp [List.length_take]
          omega
        have hfl : ((List.replicate k ((x :: xs).take n)).flatten).length = k * n := by
          rw [List.length_flatten, List.map_replicate, htake, List.sum_replicate, smul_eq_mul]
        rw [hfl, Nat.mul_comm k n]
        have h1 : ((x :: xs).length - n) * k = (x :: xs).length * k - n * k :=
          Nat.sub_mul _ _ _
        have h2 : n * k ≤ (x :: xs).length * k := Nat.mul_le_mul_right _ hle
        omega

theorem expand_data_length (old : List Nat) (n k : Nat) (hd : n ∣ old.length) :
    (expand_data old n k).length = old.length * k :=
  expand_data_go_length _ _ _ _ (Nat.le_refl _) hd

theorem expand_data_go_mem (fuel : Nat) (old : List Nat) (n k : Nat) (x : Nat)
    (hx : x ∈ expand_data_go fuel old n k) : x ∈ old := by
  induction fuel generalizing old with
  | zero => simp [expand_data_go] at hx
  | succ m ih =>
    match old with
    | [] => simp [expand_data_go] at hx
    | y :: ys =>
      rw [expand_data_go] at hx
      by_cases hn : n = 0
      · simp [hn] at hx
      · simp only [if_neg hn, List.mem_append] at hx
        rcases hx with hx | hx
        · rw [List.mem_flatten] at hx
          obtain ⟨l, hl, hxl⟩ := hx
          rw [List.eq_of_mem_replicate hl] at hxl
          exact List.mem_of_mem_take hxl
        · exact List.mem_of_mem_drop (ih _ hx)

theorem expand_data_mem (old : List Nat) (n k : Nat) (x : Nat)
    (hx : x ∈ expand_data old n k) : x ∈ old :=
  expand_data_go_mem _ _ _ _ _ hx

theorem braodcastRev_lengths (mutbl : Bool) (dims : List (Nat × Nat)) :
    ∀ (ldata rdata : List Nat) (lsize rsize : Nat) (lc rc sh : List Nat),
    braodcastRev mutbl dims ldata rdata lsize rsize = some (lc, rc, sh) →
    ldata.length = get_size (dims.map Prod.fst) * lsize →
    rdata.length = get_size (dims.map Prod.snd) * rsize →
    lc.length = get_size sh * lsize ∧ rc.length = get_size sh * rsize := by
  induction dims with
  | nil =>
    intro ldata rdata lsize rsize lc rc sh h hl hr
    simp only [braodcastRev, Option.some.injEq, Prod.mk.injEq] at h
    obtain ⟨h1, h2, h3⟩ := h
    subst h1; subst h2; subst h3
    simp only [List.map_nil, get_size_nil, one_mul] at hl hr ⊢
    exact ⟨hl, hr⟩
  | cons p dims ih =>
    obtain ⟨ldim, rdim⟩ := p
    intro ldata rdata lsize rsize lc rc sh h hl hr
    simp only [List.map_cons, get_size_cons] at hl hr
    rw [braodcastRev] at h
    by_cases he : ldim = rdim
    · rw [if_pos he] at h
      rcases hrec : braodcastRev mutbl dims ldata rdata (lsize * ldim) (rsize * rdim) with _ | ⟨l, r, sh'⟩
      · rw [hrec] at h
        exact absurd h (by simp)
      · rw [hrec] at h
        simp only [Option.some.injEq, Prod.mk.injEq] at h
        obtain ⟨h1, h2, h3⟩ := h
        subst h1; subst h2; subst h3
        obtain ⟨L, R⟩ := ih ldata rdata (lsize * ldim) (rsize * rdim) l r sh' hrec
          (by rw [hl]; ring) (by rw [hr]; ring)
        refine ⟨?_, ?_⟩
        · rw [get_size_cons, L]; ring
        · rw [get_size_cons, R, he]; ring
    · rw [if_neg he] at h
      by_cases h1 : rdim = 1
      · rw [if_pos h1] at h
        have hdvd : rsize ∣ rdata.length := ⟨rdim * get_size (dims.map Prod.snd), by rw [hr]; ring⟩
        rcases hrec : braodcastRev mutbl dims ldata (expand_data rdata rsize ldim) (lsize * ldim) (rsize * ldim) with _ | ⟨l, r, sh'⟩
        · rw [hrec] at h
          exact absurd h (by simp)
        · rw [hrec] at h
          simp only [Option.some.injEq, Prod.mk.injEq] at h
          obtain ⟨hh1, hh2, hh3⟩ := h
          subst hh1; subst hh2; subst hh3
          obtain ⟨L, R⟩ := ih ldata (expand_data rdata rsize ldim) (lsize * ldim) (rsize * ldim) l r sh' hrec
            (by rw [hl]; ring)
            (by rw [expand_data_length _ _ _ hdvd, hr, h1]; ring)
          refine ⟨?_, ?_⟩
          · rw [get_size_cons, L]; ring
          · rw [get_size_cons, R]; ring
      · rw [if_neg h1] at h
        by_cases hm : (mutbl : Prop) ∧ ldim = 1
        · rw [if_pos hm] at h
          have hdvd : lsize ∣ ldata.length := ⟨ldim * get_size (dims.map Prod.fst), by rw [hl]; ring⟩
          rcases hrec : braodcastRev mutbl dims (expand_data ldata lsize rdim) rdata (lsize * rdim) (rsize * rdim) with _ | ⟨l, r, sh'⟩
          · rw [hrec] at h
            exact absurd h (by simp)
          · rw [hrec] at h
            simp only [Option.some.injEq, Prod.mk.injEq] at h
            obtain ⟨hh1, hh2, hh3⟩ := h
            subst hh1; subst hh2; subst hh3
            obtain ⟨L, R⟩ := ih (expand_data ldata lsize rdim) rdata (lsize * rdim) (rsize * rdim) l r sh' hrec
              (by rw [expand_data_length _ _ _ hdvd, hl, hm.2]; ring)
              (by rw [hr]; ring)
            refine ⟨?_, ?_⟩
            · rw [get_size_cons, L]; ring
            · rw [get_size_cons, R]; ring
        · rw [if_neg hm] at h
          exact absurd h (by simp)

theorem braodcastRev_mem (mutbl : Bool) (dims : List (Nat × Nat)) :
    ∀ (ldata rdata : List Nat) (lsize rsize : Nat) (lc rc sh : List Nat),
    braodcastRev mutbl dims ldata rdata lsize rsize = some (lc, rc, sh) →
    (∀ x ∈ lc, x ∈ ldata) ∧ (∀ x ∈ rc, x ∈ rdata) := by
  induction dims with
  | nil =>
    intro ldata rdata lsize rsize lc rc sh h
    simp only [braodcastRev, Option.some.injEq, Prod.mk.injEq] at h
    obtain ⟨h1, h2, h3⟩ := h
    subst h1; subst h2
    exact ⟨fun x hx => hx, fun x hx => hx⟩
  | cons p dims ih =>
    obtain ⟨ldim, rdim⟩ := p
    intro ldata rdata lsize rsize lc rc sh h
    rw [braodcastRev] at h
    by_cases he : ldim = rdim
    · rw [if_pos he] at h
      rcases hrec : braodcastRev mutbl dims ldata rdata (lsize * ldim) (rsize * rdim) with _ | ⟨l, r, sh'⟩
      · rw [hrec] at h
        exact absurd h (by simp)
      · rw [hrec] at h
        simp only [Option.some.injEq, Prod.mk.injEq] at h
        obtain ⟨h1, h2, h3⟩ := h
        subst h1; subst h2
        exact ih ldata rdata _ _ l r sh' hrec
    · rw [if_neg he] at h
      by_cases h1 : rdim = 1
      · rw [if_pos h1] at h
        rcases hrec : braodcastRev mutbl dims ldata (expand_data rdata rsize ldim) (lsize * ldim) (rsize * ldim) with _ | ⟨l, r, sh'⟩
        · rw [hrec] at h
          exact absurd h (by simp)
        · rw [hrec] at h
          simp only [Option.some.injEq, Prod.mk.injEq] at h
          obtain ⟨hh1, hh2, hh3⟩ := h
          subst hh1; subst hh2
          obtain ⟨L, R⟩ := ih ldata (expand_data rdata rsize ldim) _ _ l r sh' hrec
          exact ⟨L, fun x hx => expand_data_mem _ _ _ _ (R x hx)⟩
      · rw [if_neg h1] at h
        by_cases hm : (mutbl : Prop) ∧ ldim = 1
        · rw [if_pos hm] at h
          rcases hrec : braodcastRev mutbl dims (expand_data ldata lsize rdim) rdata (lsize * rdim) (rsize * rdim) with _ | ⟨l, r, sh'⟩
          · rw [hrec] at h
            exact absurd h (by simp)
          · rw [hrec] at h
            simp only [Option.some.injEq, Prod.mk.injEq] at h
            obtain ⟨hh1, hh2, hh3⟩ := h
            subst hh1; subst hh2
            obtain ⟨L, R⟩ := ih (expand_data ldata lsize rdim) rdata _ _ l r sh' hrec
            exact ⟨fun x hx => expand_data_mem _ _ _ _ (L x hx), R⟩
        · rw [if_neg hm] at h
          exact absurd h (by simp)

theorem braodcastRev_false_left (dims : List (Nat × Nat)) :
    ∀ (ldata rdata : List Nat) (lsize rsize : Nat) (lc rc sh : List Nat),
    braodcastRev false dims ldata rdata lsize rsize = some (lc, rc, sh) →
    lc = ldata ∧ sh = dims.map Prod.fst := by
  induction dims with
  | nil =>
    intro ldata rdata lsize rsize lc rc sh h
    simp only [braodcastRev, Option.some.injEq, Prod.mk.injEq] at h
    obtain ⟨h1, h2, h3⟩ := h
    subst h1; subst h3
    exact ⟨rfl, rfl⟩
  | cons p dims ih =>
    obtain ⟨ldim, rdim⟩ := p
    intro ldata rdata lsize rsize lc rc sh h
    rw [braodcastRev] at h
    by_cases he : ldim = rdim
    · rw [if_pos he] at h
      rcases hrec : braodcastRev false dims ldata rdata (lsize * ldim) (rsize * rdim) with _ | ⟨l, r, sh'⟩
      · rw [hrec] at h
        exact absurd h (by simp)
      · rw [hrec] at h
        simp only [Option.some.injEq, Prod.mk.injEq] at h
        obtain ⟨h1, h2, h3⟩ := h
        subst h1; subst h3
        obtain ⟨L, S⟩ := ih ldata rdata _ _ l r sh' hrec
        exact ⟨L, by rw [List.map_cons, S]⟩
    · rw [if_neg he] at h
      by_cases h1 : rdim = 1
      · rw [if_pos h1] at h
        rcases hrec : braodcastRev false dims ldata (expand_data rdata rsize ldim) (lsize * ldim) (rsize * ldim) with _ | ⟨l, r, sh'⟩
        · rw [hrec] at h
          exact absurd h (by simp)
        · rw [hrec] at h
          simp only [Option.some.injEq, Prod.mk.injEq] at h
          obtain ⟨hh1, hh2, hh3⟩ := h
          subst hh1; subst hh3
          obtain ⟨L, S⟩ := ih ldata (expand_data rdata rsize ldim) _ _ l r sh' hrec
          exact ⟨L, by rw [List.map_cons, S]⟩
      · rw [if_neg h1] at h
        have : ¬((false : Bool) ∧ ldim = 1 : Prop) := by simp
        rw [if_neg this] at h
        exact absurd h (by simp)

theorem braodcastRev_false_isSome (dims : List (Nat × Nat)) :
    ∀ (ldata rdata : List Nat) (lsize rsize : Nat),
    (braodcastRev false dims ldata rdata lsize rsize).isSome ↔
      ∀ p ∈ dims, p.1 = p.2 ∨ p.2 = 1 := by
  induction dims with
  | nil =>
    intro ldata rdata lsize rsize
    simp [braodcastRev]
  | cons p dims ih =>
    obtain ⟨ldim, rdim⟩ := p
    intro ldata rdata lsize rsize
    rw [braodcastRev]
    by_cases he : ldim = rdim
    · rw [if_pos he]
      rcases hrec : braodcastRev false dims ldata rdata (lsize * ldim) (rsize * rdim) with _ | ⟨l, r, sh'⟩
      · have := (ih ldata rdata (lsize * ldim) (rsize * rdim))
        rw [hrec] at this
        simp only [Option.isSome_none, Bool.false_eq_true, false_iff] at this
        simp only [Option.isSome_none, Bool.false_eq_true, false_iff]
        intro hall
        exact this fun q hq => hall q (List.mem_cons_of_mem _ hq)
      · have := (ih ldata rdata (lsize * ldim) (rsize * rdim))
        rw [hrec] at this
        simp only [Option.isSome_some, true_iff] at this
        simp only [Option.isSome_some, true_iff]
        intro q hq
        rcases List.mem_cons.mp hq with hq | hq
        · subst hq
          exact Or.inl he
        · exact this q hq
    · rw [if_neg he]
      by_cases h1 : rdim = 1
      · rw [if_pos h1]
        rcases hrec : braodcastRev false dims ldata (expand_data rdata rsize ldim) (lsize * ldim) (rsize * ldim) with _ | ⟨l, r, sh'⟩
        · have := (ih ldata (expand_data rdata rsize ldim) (lsize * ldim) (rsize * ldim))
          rw [hrec] at this
          simp only [Option.isSome_none, Bool.false_eq_true, false_iff] at this
          simp only [Option.isSome_none, Bool.false_eq_true, false_iff]
          intro hall
          exact this fun q hq => hall q (List.mem_cons_of_mem _ hq)
        · have := (ih ldata (expand_data rdata rsize ldim) (lsize * ldim) (rsize * ldim))
          rw [hrec] at this
          simp only [Option.isSome_some, true_iff] at this
          simp only [Option.isSome_some, true_iff]
          intro q hq
          rcases List.mem_cons.mp hq with hq | hq
          · subst hq
            exact Or.inr h1
          · exact this q hq
      · rw [if_neg h1]
        have hm : ¬((false : Bool) ∧ ldim = 1 : Prop) := by simp
        rw [if_neg hm]
        simp only [Option.isSome_none, Bool.false_eq_true, false_iff]
        intro hall
        rcases hall (ldim, rdim) (List.mem_cons_self _ _) with h | h
        · exact he h
        · exact h1 h

theorem braodcast_some_lengths (lshape rshape : List Nat) (mutbl : Bool)
    (ldata rdata lc rc sh : List Nat)
    (h : braodcast lshape rshape mutbl ldata rdata = some (lc, rc, sh))
    (hl : ldata.length = get_size lshape) (hr : rdata.length = get_size rshape) :
    lc.length = get_size sh ∧ rc.length = get_size sh := by
  unfold braodcast at h
  rcases hrec : braodcastRev mutbl
      ((padOnes lshape.reverse (max lshape.reverse.length rshape.reverse.length)).zip
       (padOnes rshape.reverse (max lshape.reverse.length rshape.reverse.length)))
      ldata rdata 1 1 with _ | ⟨l, r, shRev⟩
  · rw [hrec] at h
    exact absurd h (by simp)
  · rw [hrec] at h
    simp only [Option.some.injEq, Prod.mk.injEq] at h
    obtain ⟨h1, h2, h3⟩ := h
    subst h1; subst h2
    have hlpad : (padOnes lshape.reverse (max lshape.reverse.length rshape.reverse.length)).length
        = max lshape.reverse.length rshape.reverse.length :=
      padOnes_length _ _ (le_max_left _ _)
    have hrpad : (padOnes rshape.reverse (max lshape.reverse.length rshape.reverse.length)).length
        = max lshape.reverse.length rshape.reverse.length :=
      padOnes_length _ _ (le_max_right _ _)
    have hfst := List.map_fst_zip
      (padOnes lshape.reverse (max lshape.reverse.length rshape.reverse.length))
      (padOnes rshape.reverse (max lshape.reverse.length rshape.reverse.length))
      (by rw [hlpad, hrpad])
    have hsnd := List.map_snd_zip
      (padOnes lshape.reverse (max lshape.reverse.length rshape.reverse.length))
      (padOnes rshape.reverse (max lshape.reverse.length rshape.reverse.length))
      (by rw [hlpad, hrpad])
    obtain ⟨L, R⟩ := braodcastRev_lengths mutbl _ ldata rdata 1 1 l r shRev hrec
      (by rw [hfst, get_size_padOnes, get_size_reverse, hl, mul_one])
      (by rw [hsnd, get_size_padOnes, get_size_reverse, hr, mul_one])
    subst h3
    rw [get_size_reverse]
    exact ⟨by rw [L, mul_one], by rw [R, mul_one]⟩

theorem braodcast_mem (lshape rshape : List Nat) (mutbl : Bool)
    (ldata rdata lc rc sh : List Nat)
    (h : braodcast lshape rshape mutbl ldata rdata = some (lc, rc, sh)) :
    (∀ x ∈ lc, x ∈ ldata) ∧ (∀ x ∈ rc, x ∈ rdata) := by
  unfold braodcast at h
  rcases hrec : braodcastRev mutbl
      ((padOnes lshape.reverse (max lshape.reverse.length rshape.reverse.length)).zip
       (padOnes rshape.reverse (max lshape.reverse.length rshape.reverse.length)))
      ldata rdata 1 1 with _ | ⟨l, r, shRev⟩
  · rw [hrec] at h
    exact absurd h (by simp)
  · rw [hrec] at h
    simp only [Option.some.injEq, Prod.mk.injEq] at h
    obtain ⟨h1, h2, h3⟩ := h
    subst h1; subst h2
    exact braodcastRev_mem mutbl _ ldata rdata 1 1 l r shRev hrec

theorem braodcast_false_left (lshape rshape : List Nat) (ldata rdata lc rc sh : List Nat)
    (h : braodcast lshape rshape false ldata rdata = some (lc, rc, sh)) :
    lc = ldata ∧
      sh = List.replicate (max lshape.length rshape.length - lshape.length) 1 ++ lshape := by
  unfold braodcast at h
  rcases hrec : braodcastRev false
      ((padOnes lshape.reverse (max lshape.reverse.length rshape.reverse.length)).zip
       (padOnes rshape.reverse (max lshape.reverse.length rshape.reverse.length)))
      ldata rdata 1 1 with _ | ⟨l, r, shRev⟩
  · rw [hrec] at h
    exact absurd h (by simp)
  · rw [hrec] at h
    simp only [Option.some.injEq, Prod.mk.injEq] at h
    obtain ⟨h1, h2, h3⟩ := h
    subst h1; subst h2
    obtain ⟨L, S⟩ := braodcastRev_false_left _ ldata rdata 1 1 l r shRev hrec
    have hlpad : (padOnes lshape.reverse (max lshape.reverse.length rshape.reverse.length)).length
        = max lshape.reverse.length rshape.reverse.length :=
      padOnes_length _ _ (le_max_left _ _)
    have hrpad : (padOnes rshape.reverse (max lshape.reverse.length rshape.reverse.length)).length
        = max lshape.reverse.length rshape.reverse.length :=
      padOnes_length _ _ (le_max_right _ _)
    have hfst := List.map_fst_zip
      (padOnes lshape.reverse (max lshape.reverse.length rshape.reverse.length))
      (padOnes rshape.reverse (max lshape.reverse.length rshape.reverse.length))
      (by rw [hlpad, hrpad])
    refine ⟨L, ?_⟩
    subst h3
    rw [S, hfst]
    unfold padOnes
    rw [List.reverse_append, List.reverse_replicate, List.reverse_reverse]
    simp [List.length_reverse]

theorem getD_one_forall_zip (l1 : List Nat) :
    ∀ (l2 : List Nat) (P : Nat → Nat → Prop), l1.length = l2.length →
    ((∀ p ∈ l1.zip l2, P p.1 p.2) ↔ ∀ k < l1.length, P (l1.getD k 1) (l2.getD k 1)) := by
  induction l1 with
  | nil =>
    intro l2 P hlen
    simp
  | cons a l1 ih =>
    intro l2 P hlen
    cases l2 with
    | nil => simp at hlen
    | cons b l2 =>
      simp only [List.length_cons] at hlen
      constructor
      · intro h k hk
        cases k with
        | zero =>
          simpa using h (a, b) (by simp [List.zip_cons_cons])
        | succ k =>
          have := (ih l2 P (by omega)).mp fun p hp => h p (by simp [List.zip_cons_cons, hp])
          simpa [List.getD_cons_succ] using this k (by simpa using hk)
      · intro h p hp
        rw [List.zip_cons_cons, List.mem_cons] at hp
        rcases hp with rfl | hp
        · simpa using h 0 (by simp)
        · refine (ih l2 P (by omega)).mpr ?_ p hp
          intro k hk
          simpa [List.getD_cons_succ] using h (k + 1) (by simpa using Nat.succ_lt_succ hk)

theorem specAssignCompat_iff_dims (lshape rshape : List Nat) :
    specAssignCompat lshape rshape ↔
      ∀ p ∈ (padOnes lshape.reverse (max lshape.reverse.length rshape.reverse.length)).zip
             (padOnes rshape.reverse (max lshape.reverse.length rshape.reverse.length)),
        p.1 = p.2 ∨ p.2 = 1 := by
  have hlpad : (padOnes lshape.reverse (max lshape.reverse.length rshape.reverse.length)).length
      = max lshape.reverse.length rshape.reverse.length :=
    padOnes_length _ _ (le_max_left _ _)
  have hrpad : (padOnes rshape.reverse (max lshape.reverse.length rshape.reverse.length)).length
      = max lshape.reverse.length rshape.reverse.length :=
    padOnes_length _ _ (le_max_right _ _)
  refine Iff.trans ?_ (getD_one_forall_zip
    (padOnes lshape.reverse (max lshape.reverse.length rshape.reverse.length))
    (padOnes rshape.reverse (max lshape.reverse.length rshape.reverse.length))
    (fun x y => x = y ∨ y = 1) (by rw [hlpad, hrpad])).symm
  rw [hlpad]
  unfold specAssignCompat
  constructor
  · intro h k hk
    have hk2 : k < max lshape.length rshape.length := by
      simpa [List.length_reverse] using hk
    have := h k hk2
    rw [padOnes_getD_one, padOnes_getD_one]
    rcases this with h1 | h1
    · exact Or.inl h1.symm
    · exact Or.inr h1
  · intro h k hk
    have hk2 : k < max lshape.reverse.length rshape.reverse.length := by
      simpa [List.length_reverse] using hk
    have := h k hk2
    rw [padOnes_getD_one, padOnes_getD_one] at this
    rcases this with h1 | h1
    · exact Or.inl h1.symm
    · exact Or.inr h1

theorem braodcast_false_isSome (lshape rshape : List Nat) (ldata rdata : List Nat) :
    (braodcast lshape rshape false ldata rdata).isSome ↔ specAssignCompat lshape rshape := by
  rw [specAssignCompat_iff_dims,
    ← braodcastRev_false_isSome
      ((padOnes lshape.reverse (max lshape.reverse.length rshape.reverse.length)).zip
       (padOnes rshape.reverse (max lshape.reverse.length rshape.reverse.length)))
      ldata rdata 1 1]
  unfold braodcast
  cases braodcastRev false
      ((padOnes lshape.reverse (max lshape.reverse.length rshape.reverse.length)).zip
       (padOnes rshape.reverse (max lshape.reverse.length rshape.reverse.length)))
      ldata rdata 1 1 with
  | none => simp
  | some p =>
    obtain ⟨l, r, shRev⟩ := p
    simp

theorem writeCells_length (ts : List Nat) :
    ∀ (st : Store) (rs : List Nat), (writeCells st ts rs).vals.length = st.vals.length := by
  induction ts with
  | nil =>
    intro st rs
    cases rs <;> rfl
  | cons t ts ih =>
    intro st rs
    cases rs with
    | nil => rfl
    | cons r rs =>
      rw [writeCells, ih, store_length_set]

theorem writeCells_get_not_mem (ts : List Nat) :
    ∀ (st : Store) (rs : List Nat) (id : Nat), id ∉ ts →
    (writeCells st ts rs).get id = st.get id := by
  induction ts with
  | nil =>
    intro st rs id _
    cases rs <;> rfl
  | cons t ts ih =>
    intro st rs id hid
    cases rs with
    | nil => rfl
    | cons r rs =>
      rw [writeCells, ih _ _ _ (fun hmem => hid (List.mem_cons_of_mem _ hmem))]
      exact store_get_set_ne _ _ _ _ fun he => hid (he ▸ List.mem_cons_self _ _)

theorem writeCells_get_pos (ts : List Nat) :
    ∀ (st : Store) (rs : List Nat) (k : Nat),
    ts.Nodup → (∀ r ∈ rs, r ∉ ts) → (∀ t ∈ ts, t < st.vals.length) →
    k < ts.length → ts.length ≤ rs.length →
    (writeCells st ts rs).get (ts.getD k 0) = st.get (rs.getD k 0) := by
  induction ts with
  | nil =>
    intro st rs k _ _ _ hk _
    simp at hk
  | cons t ts ih =>
    intro st rs k hnd hdisj hbound hk hlen
    cases rs with
    | nil => simp at hlen
    | cons r rs =>
      rw [writeCells]
      cases k with
      | zero =>
        rw [List.getD_cons_zero, List.getD_cons_zero]
        rw [writeCells_get_not_mem _ _ _ _ (List.Nodup.not_mem hnd)]
        exact store_get_set_self _ _ _ (hbound t (List.mem_cons_self _ _))
      | succ k =>
        rw [List.getD_cons_succ, List.getD_cons_succ]
        have hr2 : rs.getD k 0 ∈ rs := by
          have hklt : k < rs.length := by
            simp only [List.length_cons] at hk hlen
            omega
          rw [List.getD_eq_getElem _ _ hklt]
          exact List.getElem_mem _
        rw [ih (st.set t (st.get r)) rs k (List.Nodup.of_cons hnd)
          (fun r1 h1 h2 => hdisj r1 (List.mem_cons_of_mem _ h1) (List.mem_cons_of_mem _ h2))
          (fun t1 h1 => by rw [store_length_set]; exact hbound t1 (List.mem_cons_of_mem _ h1))
          (by simp only [List.length_cons] at hk; omega)
          (by simp only [List.length_cons] at hlen; omega)]
        refine store_get_set_ne _ _ _ _ fun he => ?_
        exact hdisj (rs.getD k 0) (List.mem_cons_of_mem _ hr2) (he ▸ List.mem_cons_self _ _)

theorem get_size_zero_cons (tl : List Nat) : get_size (0 :: tl) = 0 := by
  rw [get_size_cons]
  exact Nat.zero_mul _

theorem defaultArr_valid : defaultArr.Valid := by
  unfold defaultArr Arr.Valid
  rw [get_size_zero_cons]
  rfl

theorem resolve_index_rank0 (a : Arr) (i : Int) (v : Bool) (h : a.shape.length = 0) :
    resolve_index a i v = .error .indexError := by
  unfold resolve_index
  rw [if_pos h]

theorem resolve_index_err_kind (a : Arr) (i : Int) (v : Bool) (e : Err)
    (h : resolve_index a i v = .error e) : e = .indexError := by
  unfold resolve_index at h
  split  at h
  · exact ((Except.error.injEq _ _).mp h).symm
  · split  at h
    · exact ((Except.error.injEq _ _).mp h).symm
    · exact absurd h (by simp)

theorem resolve_index_noverify_ok (a : Arr) (i : Int) (d : Nat) (tl : List Nat)
    (hs : a.shape = d :: tl) :
    resolve_index a i false = .ok (if i < 0 then i + (d : Int) else i) := by
  unfold resolve_index
  rw [hs]
  simp

theorem resolve_index_verify_ok (a : Arr) (i : Int) (d : Nat) (tl : List Nat)
    (hs : a.shape = d :: tl) (hin : ¬(i < -(d : Int) ∨ (d : Int) ≤ i)) :
    resolve_index a i true = .ok (if i < 0 then i + (d : Int) else i) := by
  unfold resolve_index
  rw [hs]
  simp only [List.length_cons, List.headD_cons]
  rw [if_neg (by simp), if_neg (by simpa using hin)]

theorem index_err (a : Arr) (i : Int) (d : Nat) (tl : List Nat) (hs : a.shape = d :: tl)
    (hout : i < -(d : Int) ∨ (d : Int) ≤ i) : index a i = .error .indexError := by
  unfold index resolve_index
  rw [hs]
  simp only [List.length_cons, List.headD_cons]
  rw [if_neg (by simp), if_pos (by simpa using hout)]

theorem index_err_kind (a : Arr) (i : Int) (e : Err) (h : index a i = .error e) :
    e = .indexError := by
  unfold index at h
  rcases hres : resolve_index a i true with e2 | idx
  · rw [hres] at h
    have h2 : (Except.error e2 : Except Err Arr) = .error e := h
    rw [← (Except.error.injEq _ _).mp h2]
    exact resolve_index_err_kind a i true e2 hres
  · rw [hres] at h
    exact absurd h (by simp)

theorem index_ok (a : Arr) (i : Int) (d : Nat) (tl : List Nat)
    (hs : a.shape = d :: tl) (hin : ¬(i < -(d : Int) ∨ (d : Int) ≤ i)) :
    index a i = .ok ⟨tl,
      (a.cells.drop ((if i < 0 then i + (d : Int) else i).toNat * get_size tl)).take
        (get_size tl)⟩ := by
  unfold index
  rw [resolve_index_verify_ok a i d tl hs hin, hs]
  rfl

theorem index_ok_rank (a : Arr) (i : Int) (sub : Arr) (h : index a i = .ok sub) :
    a.shape = (a.shape.headD 0) :: a.shape.tail := by
  unfold index at h
  rcases hres : resolve_index a i true with e2 | idx
  · rw [hres] at h
    exact absurd h (by simp)
  · have hlen : a.shape.length ≠ 0 := by
      intro hz
      rw [resolve_index_rank0 a i true hz] at hres
      exact absurd hres (by simp)
    cases hsh : a.shape with
    | nil => exact absurd (by rw [hsh]; rfl) hlen
    | cons d tl => rfl

theorem index_ok_elim (a : Arr) (i : Int) (sub : Arr) (d : Nat) (tl : List Nat)
    (hs : a.shape = d :: tl) (h : index a i = .ok sub) :
    ¬(i < -(d : Int) ∨ (d : Int) ≤ i) ∧
    sub = ⟨tl, (a.cells.drop ((if i < 0 then i + (d : Int) else i).toNat * get_size tl)).take
        (get_size tl)⟩ := by
  by_cases hin : i < -(d : Int) ∨ (d : Int) ≤ i
  · rw [index_err a i d tl hs hin] at h
    exact absurd h (by simp)
  · rw [index_ok a i d tl hs hin] at h
    exact ⟨hin, ((Except.ok.injEq _ _).mp h).symm⟩

theorem index_valid (a : Arr) (i : Int) (sub : Arr) (hv : a.Valid)
    (h : index a i = .ok sub) :
    sub.Valid ∧ sub.shape = a.shape.tail ∧ (∀ x ∈ sub.cells, x ∈ a.cells) ∧
    sub.cells.length = get_size a.shape.tail := by
  have hsh := index_ok_rank a i sub h
  obtain ⟨hin, hsub⟩ := index_ok_elim a i sub (a.shape.headD 0) a.shape.tail hsh h
  subst hsub
  push_neg at hin
  obtain ⟨h1, h2⟩ := hin
  have hres_nonneg : 0 ≤ if i < 0 then i + ((a.shape.headD 0 : Nat) : Int) else i := by
    split <;> omega
  have hres_lt : (if i < 0 then i + ((a.shape.headD 0 : Nat) : Int) else i) < (a.shape.headD 0 : Nat) := by
    split <;> omega
  have hres_lt_nat : (if i < 0 then i + ((a.shape.headD 0 : Nat) : Int) else i).toNat < a.shape.headD 0 := by
    omega
  have hlen : a.cells.length = (a.shape.headD 0) * get_size a.shape.tail := by
    rw [Arr.Valid] at hv
    calc a.cells.length = get_size a.shape := hv
      _ = get_size (a.shape.headD 0 :: a.shape.tail) := by rw [← hsh]
      _ = _ := get_size_cons _ _
  have hbound : ((if i < 0 then i + ((a.shape.headD 0 : Nat) : Int) else i).toNat + 1) * get_size a.shape.tail
      ≤ (a.shape.headD 0) * get_size a.shape.tail :=
    Nat.mul_le_mul_right _ hres_lt_nat
  refine ⟨?_, rfl, ?_, ?_⟩
  · rw [Arr.Valid]
    simp only [List.length_take, List.length_drop]
    rw [hlen]
    have := hbound
    rw [Nat.succ_mul] at this
    omega
  · intro x hx
    exact List.mem_of_mem_drop (List.mem_of_mem_take hx)
  · simp only [List.length_take, List.length_drop]
    rw [hlen]
    have := hbound
    rw [Nat.succ_mul] at this
    omega

theorem exceptMap_ok_length (f : Int → Except Err Arr) (l : List Int) :
    ∀ out, exceptMap f l = .ok out → out.length = l.length := by
  induction l with
  | nil =>
    intro out h
    rw [exceptMap] at h
    simp only [Except.ok.injEq] at h
    rw [← h]
    rfl
  | cons i is ih =>
    intro out h
    rw [exceptMap] at h
    rcases hf : f i with e | x
    · rw [hf] at h
      exact absurd h (by simp)
    · rw [hf] at h
      rcases hrec : exceptMap f is with e | xs
      · rw [hrec] at h
        exact absurd h (by simp)
      · rw [hrec] at h
        simp only [Except.ok.injEq] at h
        rw [← h]
        simp [ih xs hrec]

theorem exceptMap_ok_mem (f : Int → Except Err Arr) (l : List Int) :
    ∀ out, exceptMap f l = .ok out → ∀ x ∈ out, ∃ i ∈ l, f i = .ok x := by
  induction l with
  | nil =>
    intro out h x hx
    rw [exceptMap] at h
    simp only [Except.ok.injEq] at h
    rw [← h] at hx
    simp at hx
  | cons i is ih =>
    intro out h x hx
    rw [exceptMap] at h
    rcases hf : f i with e | y
    · rw [hf] at h
      exact absurd h (by simp)
    · rw [hf] at h
      rcases hrec : exceptMap f is with e | ys
      · rw [hrec] at h
        exact absurd h (by simp)
      · rw [hrec] at h
        simp only [Except.ok.injEq] at h
        rw [← h] at hx
        rcases List.mem_cons.mp hx with rfl | hx
        · exact ⟨i, List.mem_cons_self _ _, hf⟩
        · obtain ⟨j, hj, hfj⟩ := ih ys hrec x hx
          exact ⟨j, List.mem_cons_of_mem _ hj, hfj⟩

theorem exceptMap_map_ok (f : Int → Except Err Arr) (g : Int → Arr) (l : List Int)
    (h : ∀ i ∈ l, f i = .ok (g i)) : exceptMap f l = .ok (l.map g) := by
  induction l with
  | nil => rfl
  | cons i is ih =>
    rw [exceptMap, h i (List.mem_cons_self _ _),
      ih fun j hj => h j (List.mem_cons_of_mem _ hj)]
    rfl

theorem get_shape_cons_elim (subs : List Arr) (d : Nat) (sh : List Nat)
    (h : get_shape subs = d :: sh) :
    d = subs.length ∧ ∀ x ∈ subs, x.shape = sh := by
  cases subs with
  | nil => exact absurd h (by rw [get_shape]; simp)
  | cons a0 rest =>
    rw [get_shape] at h
    by_cases hall : ((a0 :: rest).all fun s => decide (s.shape = a0.shape)) = true
    · rw [if_pos hall] at h
      simp only [List.cons.injEq] at h
      obtain ⟨h1, h2⟩ := h
      refine ⟨h1.symm, fun x hx => ?_⟩
      have := List.all_eq_true.mp hall x hx
      rw [← h2]
      exact of_decide_eq_true this
    · rw [if_neg hall] at h
      exact absurd h (by simp)

theorem get_shape_of_all (a0 : Arr) (rest : List Arr)
    (hall : ∀ x ∈ a0 :: rest, x.shape = a0.shape) :
    get_shape (a0 :: rest) = (a0 :: rest).length :: a0.shape := by
  rw [get_shape]
  rw [if_pos (List.all_eq_true.mpr fun x hx => decide_eq_true (hall x hx))]

theorem flatten_data_cons (a : Arr) (rest : List Arr) :
    flatten_data (a :: rest) = a.cells ++ flatten_data rest := by
  rw [flatten_data, flatten_data, List.map_cons, List.flatten_cons]

theorem flatten_data_length (subs : List Arr) (sh : List Nat)
    (hall : ∀ x ∈ subs, x.shape = sh) (hv : ∀ x ∈ subs, x.Valid) :
    (flatten_data subs).length = subs.length * get_size sh := by
  induction subs with
  | nil => simp [flatten_data]
  | cons a rest ih =>
    rw [flatten_data_cons, List.length_append,
      ih (fun x hx => hall x (List.mem_cons_of_mem _ hx))
        (fun x hx => hv x (List.mem_cons_of_mem _ hx))]
    have ha : a.cells.length = get_size sh := by
      rw [hv a (List.mem_cons_self _ _), hall a (List.mem_cons_self _ _)]
    rw [ha, List.length_cons, Nat.succ_mul]
    omega

theorem flatten_data_mem (subs : List Arr) (x : Nat) (hx : x ∈ flatten_data subs) :
    ∃ s ∈ subs, x ∈ s.cells := by
  induction subs with
  | nil => exact absurd hx (by rw [flatten_data]; simp)
  | cons a rest ih =>
    rw [flatten_data_cons, List.mem_append] at hx
    rcases hx with hx | hx
    · exact ⟨a, List.mem_cons_self _ _, hx⟩
    · obtain ⟨s, hs, hxs⟩ := ih hx
      exact ⟨s, List.mem_cons_of_mem _ hs, hxs⟩

theorem slice_impl_valid (args : List Selector) :
    ∀ (a b : Arr), a.Valid → slice_impl a args = .ok b → b.Valid := by
  induction args with
  | nil =>
    intro a b hv h
    rw [slice_impl] at h
    rw [← (Except.ok.injEq _ _).mp h]
    exact hv
  | cons sel rest ih =>
    cases sel with
    | idx i =>
      intro a b hv h
      rw [slice_impl] at h
      split  at h
      · exact absurd h (by simp)
      · rename_i sub hres
        split  at h
        · exact absurd h (by simp)
        · exact ih sub b (index_valid a i sub hv hres).1 h
    | range s e =>
      intro a b hv h
      rw [slice_impl] at h
      split  at h
      · exact absurd h (by simp)
      · split  at h
        · exact absurd h (by simp)
        · split  at h
          · exact absurd h (by simp)
          · rename_i slices hmap
            split  at h
            · rw [← (Except.ok.injEq _ _).mp h]
              exact defaultArr_valid
            · rename_i d sh hgs
              split  at h
              · rw [← (Except.ok.injEq _ _).mp h]
                exact defaultArr_valid
              · rename_i c cs hfl
                rw [← (Except.ok.injEq _ _).mp h]
                obtain ⟨hd, hall⟩ := get_shape_cons_elim slices d sh hgs
                have hvs : ∀ x ∈ slices, x.Valid := by
                  intro x hx
                  obtain ⟨j, hj, hfj⟩ := exceptMap_ok_mem _ _ slices hmap x hx
                  split  at hfj
                  · exact absurd hfj (by simp)
                  · rename_i sub hres
                    split  at hfj
                    · exact absurd hfj (by simp)
                    · exact ih sub x (index_valid a j sub hv hres).1 hfj
                rw [Arr.Valid]
                have : (flatten_data slices).length = slices.length * get_size sh :=
                  flatten_data_length slices sh hall hvs
                rw [hfl] at this
                simp only [List.length_cons] at this ⊢
                rw [this, get_size_cons, hd]

theorem slice_valid (a : Arr) (args : List Selector) (b : Arr) (hv : a.Valid)
    (h : slice a args = .ok b) : b.Valid := by
  unfold slice at h
  split  at h
  · exact absurd h (by simp)
  · exact slice_impl_valid args a b hv h

theorem index_mem (a : Arr) (i : Int) (sub : Arr) (h : index a i = .ok sub) :
    ∀ x ∈ sub.cells, x ∈ a.cells := by
  have hsh := index_ok_rank a i sub h
  obtain ⟨hin, hval⟩ := index_ok_elim a i sub (a.shape.headD 0) a.shape.tail hsh h
  subst hval
  intro x hx
  exact List.mem_of_mem_drop (List.mem_of_mem_take hx)

theorem slice_impl_mem (args : List Selector) :
    ∀ (a c : Arr), slice_impl a args = .ok c → ∀ x ∈ c.cells, x ∈ a.cells := by
  induction args with
  | nil =>
    intro a c h x hx
    rw [slice_impl] at h
    rw [← (Except.ok.injEq _ _).mp h] at hx
    exact hx
  | cons sel rest ih =>
    cases sel with
    | idx i =>
      intro a c h x hx
      rw [slice_impl] at h
      split  at h
      · exact absurd h (by simp)
      · rename_i sub hres
        split  at h
        · exact absurd h (by simp)
        · exact index_mem a i sub hres x (ih sub c h x hx)
    | range s e =>
      intro a c h x hx
      rw [slice_impl] at h
      split  at h
      · exact absurd h (by simp)
      · split  at h
        · exact absurd h (by simp)
        · split  at h
          · exact absurd h (by simp)
          · rename_i slices hmap
            split  at h
            · rw [← (Except.ok.injEq _ _).mp h] at hx
              simp [defaultArr] at hx
            · rename_i d2 sh hgs
              split  at h
              · rw [← (Except.ok.injEq _ _).mp h] at hx
                simp [defaultArr] at hx
              · rename_i cc cs hfl
                rw [← (Except.ok.injEq _ _).mp h] at hx
                have hx2 : x ∈ flatten_data slices := by
                  rw [hfl]
                  exact hx
                obtain ⟨sarr, hsarr, hxs⟩ := flatten_data_mem slices x hx2
                obtain ⟨j, hj, hfj⟩ := exceptMap_ok_mem _ _ slices hmap sarr hsarr
                split  at hfj
                · exact absurd hfj (by simp)
                · rename_i sub hres
                  split  at hfj
                  · exact absurd hfj (by simp)
                  · exact index_mem a j sub hres x (ih sub sarr hfj x hxs)

theorem slice_mem (a : Arr) (args : List Selector) (c : Arr)
    (h : slice a args = .ok c) : ∀ x ∈ c.cells, x ∈ a.cells := by
  unfold slice at h
  split  at h
  · exact absurd h (by simp)
  · exact slice_impl_mem args a c h

theorem slice_impl_range_reduce (a : Arr) (s e : Int) (rest : List Selector)
    (rb re2 : Int) (slices : List Arr)
    (h1 : resolve_index a s false = .ok rb)
    (h2 : resolve_index a e false = .ok re2)
    (h3 : exceptMap (fun i =>
        match index a i with
        | .error er => .error er
        | .ok sub =>
          if rest.length > sub.shape.length then Except.error Err.indexError
          else slice_impl sub rest)
        ((List.range (min ((a.shape.headD 0 : Nat) : Int) re2 - max 0 rb).toNat).map
          fun k => max 0 rb + Int.ofNat k) = .ok slices) :
    slice_impl a (.range s e :: rest) =
      match get_shape slices with
      | [] => .ok defaultArr
      | d :: sh =>
        match flatten_data slices with
        | [] => .ok defaultArr
        | c :: cs => .ok ⟨d :: sh, c :: cs⟩ := by
  simp only [slice_impl, h1, h2, h3]

theorem get_size_singleton (n : Nat) : get_size [n] = n := by
  rw [get_size_cons, get_size_nil, Nat.mul_one]

theorem arange_valid (n : Nat) (start : Int) (st : Store) : ((arange n start st).1).Valid := by
  rw [Arr.Valid]
  show (List.range' st.vals.length ((List.range n).map fun i => start + Int.ofNat i).length).length
      = get_size [n]
  rw [List.length_range', List.length_map, List.length_range, get_size_singleton]

theorem scalar_valid (v : Int) (st : Store) : ((scalar v st).1).Valid := by
  unfold scalar transform_data Arr.Valid
  simp [get_size_nil]

theorem full_valid (shape : List Nat) (v : Int) (st : Store) :
    ((full shape v st).1).Valid := by
  unfold full transform_data Arr.Valid
  simp

theorem ofVals_valid (vals : List Int) (st : Store) : ((ofVals vals st).1).Valid := by
  unfold ofVals transform_data Arr.Valid
  simp [get_size_singleton]

theorem astype_valid (a : Arr) (st : Store) (hv : a.Valid) : ((astype a st).1).Valid := by
  unfold astype transform_data Arr.Valid
  simpa using hv

theorem reshape_ok (a : Arr) (s : List Nat) (h : get_size a.shape = get_size s) :
    reshape a s = .ok ⟨s, a.cells⟩ := by
  unfold reshape
  rw [if_neg (by simp [h])]

theorem reshape_err (a : Arr) (s : List Nat) (h : get_size a.shape ≠ get_size s) :
    reshape a s = .error .valueError := by
  unfold reshape
  rw [if_pos h]

theorem reshape_valid (a : Arr) (s : List Nat) (b : Arr) (hv : a.Valid)
    (h : reshape a s = .ok b) : b.Valid := by
  unfold reshape at h
  split  at h
  · exact absurd h (by simp)
  · rename_i hne
    rw [← (Except.ok.injEq _ _).mp h]
    rw [Arr.Valid] at hv ⊢
    simp only [not_not] at hne
    rw [hv, hne]

theorem operator_impl_err (a b : Arr) (op : Op) (st : Store)
    (h : braodcast a.shape b.shape true a.cells b.cells = none) :
    operator_impl a b op st = (.error .valueError, st) := by
  unfold operator_impl
  rw [h]

theorem operator_impl_spec (a b : Arr) (op : Op) (st : Store) (lc rc sh : List Nat)
    (hva : a.Valid) (hvb : b.Valid)
    (hia : st.ValidIn a) (hib : st.ValidIn b)
    (hbc : braodcast a.shape b.shape true a.cells b.cells = some (lc, rc, sh)) :
    ∃ c st2, operator_impl a b op st = (.ok c, st2) ∧
      c.shape = sh ∧
      c.cells.length = get_size sh ∧
      c.cells.Nodup ∧
      (∀ k, k < c.cells.length →
        st2.get (c.cells.getD k 0) = applyOp op (st.get (lc.getD k 0)) (st.get (rc.getD k 0))) ∧
      (∀ id ∈ c.cells, id ∉ a.cells ∧ id ∉ b.cells) ∧
      (∀ i < st.vals.length, st2.get i = st.get i) ∧
      st2.vals.length = st.vals.length + get_size sh := by
  obtain ⟨hlc, hrc⟩ := braodcast_some_lengths a.shape b.shape true a.cells b.cells lc rc sh hbc hva hvb
  have hziplen : (lc.zip rc).length = get_size sh := by
    rw [List.length_zip, hlc, hrc, Nat.min_self]
  have hmaplen : ((lc.zip rc).map fun p => applyOp op (st.get p.1) (st.get p.2)).length
      = get_size sh := by
    rw [List.length_map, hziplen]
  have hrun : operator_impl a b op st =
      (.ok ⟨sh, List.range' st.vals.length
          (((lc.zip rc).map fun p => applyOp op (st.get p.1) (st.get p.2)).length)⟩,
       ⟨st.vals ++ ((lc.zip rc).map fun p => applyOp op (st.get p.1) (st.get p.2))⟩) := by
    unfold operator_impl
    rw [hbc]
    rfl
  refine ⟨_, _, hrun, rfl, ?_, ?_, ?_, ?_, ?_, ?_⟩
  · simp [List.length_range', hmaplen]
  · exact List.nodup_range' _ _
  · intro k hk
    simp only [List.length_range'] at hk
    have hk2 : k < get_size sh := by rw [← hmaplen]; exact hk
    have hcell : (List.range' st.vals.length
        (((lc.zip rc).map fun p => applyOp op (st.get p.1) (st.get p.2)).length)).getD k 0
        = st.vals.length + k := by
      rw [List.getD_eq_getElem _ _ (by simpa using hk), List.getElem_range']
      omega
    rw [hcell]
    have hget := transform_data_get_new
      ((lc.zip rc).map fun p => applyOp op (st.get p.1) (st.get p.2)) st k
    rw [show (Store.mk (st.vals ++ (lc.zip rc).map fun p => applyOp op (st.get p.1) (st.get p.2)))
        = (transform_data ((lc.zip rc).map fun p => applyOp op (st.get p.1) (st.get p.2)) st).2
      from rfl]
    rw [hget]
    have hklt : k < ((lc.zip rc).map fun p => applyOp op (st.get p.1) (st.get p.2)).length := by
      rw [hmaplen]; exact hk2
    rw [List.getD_eq_getElem _ _ hklt, List.getElem_map, List.getElem_zip]
    rw [List.getD_eq_getElem _ _ (by rw [hlc]; exact hk2),
      List.getD_eq_getElem _ _ (by rw [hrc]; exact hk2)]
  · intro id hid
    have hge : st.vals.length ≤ id := by
      have := List.mem_range'_1.mp hid
      exact this.1
    constructor
    · intro hmem
      exact absurd (hia id hmem) (by omega)
    · intro hmem
      exact absurd (hib id hmem) (by omega)
  · intro i hi
    have := transform_data_get_old
      ((lc.zip rc).map fun p => applyOp op (st.get p.1) (st.get p.2)) st i hi
    exact this
  · simp [List.length_append, hmaplen]

theorem assign_err (target rhs : Arr) (st : Store)
    (h : braodcast target.shape rhs.shape false target.cells rhs.cells = none) :
    assign target rhs st = (.error .valueError, st) := by
  unfold assign
  rw [h]

theorem assign_ok_run (target rhs : Arr) (st : Store) (lc rc sh : List Nat)
    (hbc : braodcast target.shape rhs.shape false target.cells rhs.cells = some (lc, rc, sh)) :
    assign target rhs st = (.ok (), writeCells st target.cells rc) := by
  unfold assign
  rw [hbc]

theorem assign_spec (v rhs : Arr) (st : Store) (lc rc sh : List Nat)
    (hvv : v.Valid) (hvr : rhs.Valid) (hin : st.ValidIn v)
    (hnd : v.cells.Nodup) (hdisj : ∀ id ∈ rhs.cells, id ∉ v.cells)
    (hbc : braodcast v.shape rhs.shape false v.cells rhs.cells = some (lc, rc, sh)) :
    ∃ st2, assign v rhs st = (.ok (), st2) ∧
      st2.vals.length = st.vals.length ∧
      (∀ k, k < v.cells.length → st2.get (v.cells.getD k 0) = st.get (rc.getD k 0)) ∧
      (∀ id, id ∉ v.cells → st2.get id = st.get id) := by
  obtain ⟨hlc, hrc⟩ := braodcast_some_lengths v.shape rhs.shape false v.cells rhs.cells lc rc sh hbc hvv hvr
  have hleft := (braodcast_false_left v.shape rhs.shape v.cells rhs.cells lc rc sh hbc).1
  have hvlen : v.cells.length = get_size sh := by rw [← hleft]; exact hlc
  have hdisj2 : ∀ x ∈ rc, x ∉ v.cells := by
    intro x hx
    exact hdisj x ((braodcast_mem v.shape rhs.shape false v.cells rhs.cells lc rc sh hbc).2 x hx)
  refine ⟨writeCells st v.cells rc, assign_ok_run v rhs st lc rc sh hbc, ?_, ?_, ?_⟩
  · exact writeCells_length _ _ _
  · intro k hk
    exact writeCells_get_pos v.cells st rc k hnd hdisj2 hin hk (by rw [hvlen, hrc])
  · intro id hid
    exact writeCells_get_not_mem _ _ _ _ hid

theorem get_shape_mismatch (subs : List Arr)
    (hbad : ∃ x ∈ subs, ∃ y ∈ subs, x.shape ≠ y.shape) :
    get_shape subs = [] := by
  cases subs with
  | nil => rfl
  | cons a0 rest =>
    rw [get_shape]
    rw [if_neg ?hneg]
    case hneg =>
      intro hall
      obtain ⟨x, hx, y, hy, hxy⟩ := hbad
      have hax := of_decide_eq_true (List.all_eq_true.mp hall x hx)
      have hay := of_decide_eq_true (List.all_eq_true.mp hall y hy)
      exact hxy (hax.trans hay.symm)

theorem ofList_mismatch (subs : List Arr)
    (hbad : ∃ x ∈ subs, ∃ y ∈ subs, x.shape ≠ y.shape) :
    ofList subs = ⟨[], []⟩ := by
  unfold ofList
  rw [get_shape_mismatch subs hbad]

theorem ofList_valid_of (subs : List Arr) (d : Nat) (sh : List Nat)
    (hgs : get_shape subs = d :: sh) (hv : ∀ x ∈ subs, x.Valid)
    (hne : flatten_data subs ≠ []) : (ofList subs).Valid := by
  unfold ofList
  rw [hgs]
  cases hfl : flatten_data subs with
  | nil => exact absurd hfl hne
  | cons c cs =>
    obtain ⟨hd, hall⟩ := get_shape_cons_elim subs d sh hgs
    rw [Arr.Valid]
    have hlen : (flatten_data subs).length = subs.length * get_size sh :=
      flatten_data_length subs sh hall hv
    rw [hfl] at hlen
    simp only [List.length_cons] at hlen ⊢
    rw [hlen, get_size_cons, hd]

/-! The claims. -/

/-- Claim C1: the binary operators add, sub, mul and div all route through
operator_impl; for every pair of operands whose shapes align under the
trailing-axis walk with lhsExpandable = true (the braodcast call), the
result array carries the aligned shape, one freshly allocated cell per
result position (pairwise distinct, disjoint from both operands' cells),
each holding the operator applied to the dereferenced aligned scalar
values, and the operands' cells keep their values. -/
theorem claim_C1_binary_ops (a b : Arr) (op : Op) (st : Store) (lc rc sh : List Nat)
    (hva : a.Valid) (hvb : b.Valid) (hia : st.ValidIn a) (hib : st.ValidIn b)
    (hbc : braodcast a.shape b.shape true a.cells b.cells = some (lc, rc, sh)) :
    addArr a b st = operator_impl a b .add st ∧
    subArr a b st = operator_impl a b .sub st ∧
    mulArr a b st = operator_impl a b .mul st ∧
    divArr a b st = operator_impl a b .div st ∧
    ∃ c st2, operator_impl a b op st = (.ok c, st2) ∧
      c.shape = sh ∧
      c.cells.length = get_size sh ∧
      c.cells.Nodup ∧
      (∀ k, k < c.cells.length → st2.get (c.cells.getD k 0) =
        applyOp op (st.get (lc.getD k 0)) (st.get (rc.getD k 0))) ∧
      (∀ id ∈ c.cells, id ∉ a.cells ∧ id ∉ b.cells) ∧
      (∀ i < st.vals.length, st2.get i = st.get i) := by
  refine ⟨rfl, rfl, rfl, rfl, ?_⟩
  obtain ⟨c, st2, h1, h2, h3, h4, h5, h6, h7, _⟩ :=
    operator_impl_spec a b op st lc rc sh hva hvb hia hib hbc
  exact ⟨c, st2, h1, h2, h3, h4, h5, h6, h7⟩

theorem claim_C1_witness :
    ∃ c st2, operator_impl ⟨[2], [0, 1]⟩ ⟨[], [2]⟩ .add ⟨[10, 11, 12]⟩ = (.ok c, st2) ∧
      c.shape = [2] ∧
      c.cells.length = get_size [2] ∧
      c.cells.Nodup ∧
      (∀ k, k < c.cells.length → st2.get (c.cells.getD k 0) =
        applyOp .add ((Store.mk [10, 11, 12]).get ([0, 1].getD k 0))
          ((Store.mk [10, 11, 12]).get ([2, 2].getD k 0))) ∧
      (∀ id ∈ c.cells, id ∉ [0, 1] ∧ id ∉ [2]) ∧
      (∀ i < [(10 : Int), 11, 12].length, st2.get i = (Store.mk [10, 11, 12]).get i) :=
  (claim_C1_binary_ops ⟨[2], [0, 1]⟩ ⟨[], [2]⟩ .add ⟨[10, 11, 12]⟩ [0, 1] [2, 2] [2]
    (by decide) (by decide) (by decide) (by decide) (by decide)).2.2.2.2

/-- Claim C3 (also such parts of C2 and C8 as concern the broadcast rule):
assignment broadcasts with lhsExpandable = false; it succeeds exactly when
the right-hand shape aligns to the target shape expanding only right-hand
size-1 or missing axes (specAssignCompat, written from the spec), it
throws a ValueError leaving the store untouched otherwise, and on success
the broadcast never expands the target side: the returned left data is the
target's cell list unchanged and the aligned shape is the target shape
padded with leading 1 axes. The target's shape is never written: assign
returns only a store. -/
theorem claim_C3_assign_broadcast (target rhs : Arr) (st : Store) :
    ((assign target rhs st).1 = .ok () ↔ specAssignCompat target.shape rhs.shape) ∧
    (¬ specAssignCompat target.shape rhs.shape →
      assign target rhs st = (.error .valueError, st)) ∧
    (∀ lc rc sh,
      braodcast target.shape rhs.shape false target.cells rhs.cells = some (lc, rc, sh) →
      lc = target.cells ∧
      sh = List.replicate (max target.shape.length rhs.shape.length - target.shape.length) 1
        ++ target.shape) := by
  rcases hbc : braodcast target.shape rhs.shape false target.cells rhs.cells
    with _ | ⟨lc, rc, sh⟩
  · have hns : ¬ specAssignCompat target.shape rhs.shape := by
      rw [← braodcast_false_isSome target.shape rhs.shape target.cells rhs.cells, hbc]
      simp
    refine ⟨?_, fun _ => assign_err target rhs st hbc, ?_⟩
    · rw [assign_err target rhs st hbc]
      simp [hns]
    · intro lc rc sh h
      exact absurd h (by simp)
  · have hcs : specAssignCompat target.shape rhs.shape := by
      rw [← braodcast_false_isSome target.shape rhs.shape target.cells rhs.cells, hbc]
      rfl
    refine ⟨?_, fun hn => absurd hcs hn, ?_⟩
    · rw [assign_ok_run target rhs st lc rc sh hbc]
      simp [hcs]
    · intro lc2 rc2 sh2 h
      simp only [Option.some.injEq, Prod.mk.injEq] at h
      obtain ⟨h1, h2, h3⟩ := h
      subst h1; subst h3
      exact braodcast_false_left target.shape rhs.shape target.cells rhs.cells _ _ _ hbc

theorem claim_C3_witness :
    assign ⟨[2], [0, 1]⟩ ⟨[3], [2, 3, 4]⟩ ⟨[5, 6, 7, 8, 9]⟩
      = (.error .valueError, ⟨[5, 6, 7, 8, 9]⟩) :=
  (claim_C3_assign_broadcast ⟨[2], [0, 1]⟩ ⟨[3], [2, 3, 4]⟩ ⟨[5, 6, 7, 8, 9]⟩).2.1 (by decide)

/-- Claim C2 counterexample: the claim as stated is false when the
right-hand side aliases cells of the target view. With a = arange(3)
(cells 0,1,2 holding 0,1,2), v = a.slice((1,3)) (cells 1,2) and
other = a.slice((0,2)) (cells 0,1), the write loop runs in order, so
position 1 of v reads cell 1 after it was already overwritten: the final
store is 0,0,0 and re-reading v's position 1 (cell 2) gives 0, while
other's broadcast value at that position was cell 1's prior value 1. -/
theorem claim_C2_counterexample :
    slice ⟨[3], [0, 1, 2]⟩ [Selector.range 1 3] = .ok ⟨[2], [1, 2]⟩ ∧
    slice ⟨[3], [0, 1, 2]⟩ [Selector.range 0 2] = .ok ⟨[2], [0, 1]⟩ ∧
    braodcast [2] [2] false [1, 2] [0, 1] = some ([1, 2], [0, 1], [2]) ∧
    assign ⟨[2], [1, 2]⟩ ⟨[2], [0, 1]⟩ ⟨[0, 1, 2]⟩ = (.ok (), ⟨[0, 0, 0]⟩) ∧
    (Store.mk [0, 0, 0]).get 2 ≠ (Store.mk [0, 1, 2]).get 1 := by
  decide

/-- Claim C2 (amended): when the right-hand array shares no cell with the
target view and the view's cells are pairwise distinct, a successful
assignment overwrites exactly the view's cells with the broadcast
right-hand values as they were before the call, leaves every other cell's
value unchanged (so the base array outside the sliced region is intact),
keeps the store's cell population fixed (no reallocation: the view's
cell-sequence container is untouched, only the stored values change), and
any previously taken view b sharing a cell with v reads the new value at
that cell. -/
theorem claim_C2_assign_write_through (v rhs : Arr) (st : Store) (lc rc sh : List Nat)
    (hvv : v.Valid) (hvr : rhs.Valid) (hin : st.ValidIn v)
    (hnd : v.cells.Nodup) (hdisj : ∀ id ∈ rhs.cells, id ∉ v.cells)
    (hbc : braodcast v.shape rhs.shape false v.cells rhs.cells = some (lc, rc, sh)) :
    ∃ st2, assign v rhs st = (.ok (), st2) ∧
      st2.vals.length = st.vals.length ∧
      (∀ k, k < v.cells.length → st2.get (v.cells.getD k 0) = st.get (rc.getD k 0)) ∧
      (∀ id, id ∉ v.cells → st2.get id = st.get id) ∧
      (∀ (b : Arr) (p k : Nat), p < b.cells.length → k < v.cells.length →
        b.cells.getD p 0 = v.cells.getD k 0 →
        st2.get (b.cells.getD p 0) = st.get (rc.getD k 0)) := by
  obtain ⟨st2, h1, h2, h3, h4⟩ := assign_spec v rhs st lc rc sh hvv hvr hin hnd hdisj hbc
  refine ⟨st2, h1, h2, h3, h4, ?_⟩
  intro b p k _ hk heq
  rw [heq]
  exact h3 k hk

theorem claim_C2_witness :
    ∃ st2, assign ⟨[2], [1, 2]⟩ ⟨[1], [3]⟩ ⟨[0, 1, 2, 9]⟩ = (.ok (), st2) ∧
      st2.vals.length = (Store.mk [0, 1, 2, 9]).vals.length ∧
      (∀ k, k < [1, 2].length → st2.get ([1, 2].getD k 0)
        = (Store.mk [0, 1, 2, 9]).get ([3, 3].getD k 0)) ∧
      (∀ id, id ∉ [1, 2] → st2.get id = (Store.mk [0, 1, 2, 9]).get id) ∧
      (∀ (b : Arr) (p k : Nat), p < b.cells.length → k < [1, 2].length →
        b.cells.getD p 0 = [1, 2].getD k 0 →
        st2.get (b.cells.getD p 0) = (Store.mk [0, 1, 2, 9]).get ([3, 3].getD k 0)) :=
  claim_C2_assign_write_through ⟨[2], [1, 2]⟩ ⟨[1], [3]⟩ ⟨[0, 1, 2, 9]⟩ [1, 2] [3, 3] [2]
    (by decide) (by decide) (by decide) (by decide) (by decide) (by decide)

/-- Claim C4: indexing on axis 0 resolves a negative index by adding the
axis length, errors (with an IndexError) exactly when the raw request
falls outside the interval from -len to len (right end excluded), and on
success returns a view dropping the leading axis whose cell sequence is
the contiguous block of product-of-remaining-shape cell ids at the
resolved offset (the very same ids, so the cells are shared); in
particular indexing with -1 equals indexing with len - 1. -/
theorem claim_C4_index (a : Arr) (i : Int) (d : Nat) (tl : List Nat)
    (hv : a.Valid) (hs : a.shape = d :: tl) :
    ((∃ e, index a i = .error e) ↔ (i < -(d : Int) ∨ (d : Int) ≤ i)) ∧
    (∀ e, index a i = .error e → e = .indexError) ∧
    (∀ sub, index a i = .ok sub →
      sub.shape = tl ∧
      sub.cells = (a.cells.drop
        ((if i < 0 then i + (d : Int) else i).toNat * get_size tl)).take (get_size tl) ∧
      sub.cells.length = get_size tl ∧
      (∀ x ∈ sub.cells, x ∈ a.cells)) ∧
    index a (-1) = index a ((d : Int) - 1) := by
  refine ⟨⟨?_, ?_⟩, ?_, ?_, ?_⟩
  · intro ⟨e, he⟩
    by_contra hin
    rw [index_ok a i d tl hs hin] at he
    exact absurd he (by simp)
  · intro hout
    exact ⟨.indexError, index_err a i d tl hs hout⟩
  · intro e he
    exact index_err_kind a i e he
  · intro sub hsub
    obtain ⟨hin, hval⟩ := index_ok_elim a i sub d tl hs hsub
    obtain ⟨_, _, hmem, hlen⟩ := index_valid a i sub hv hsub
    subst hval
    refine ⟨rfl, rfl, ?_, hmem⟩
    rw [hs] at hlen
    exact hlen
  · by_cases hd : d = 0
    · subst hd
      rw [index_err a (-1) 0 tl hs (Or.inl (by norm_num)),
        index_err a (((0 : Nat) : Int) - 1) 0 tl hs (Or.inl (by norm_num))]
    · have hd1 : 1 ≤ (d : Int) := by omega
      rw [index_ok a (-1) d tl hs (by omega), index_ok a ((d : Int) - 1) d tl hs (by omega)]
      have e1 : (if (-1 : Int) < 0 then -1 + (d : Int) else -1) = (d : Int) - 1 := by
        rw [if_pos (by norm_num)]
        ring
      have e2 : (if ((d : Int) - 1) < 0 then (d : Int) - 1 + (d : Int) else (d : Int) - 1)
          = (d : Int) - 1 := by
        rw [if_neg (by omega)]
      rw [e1, e2]

theorem claim_C4_witness :
    index ⟨[2], [5, 6]⟩ (-1) = index ⟨[2], [5, 6]⟩ (((2 : Nat) : Int) - 1) :=
  (claim_C4_index ⟨[2], [5, 6]⟩ (-1) 2 [] (by decide) rfl).2.2.2

/-- Claim C6: reshape succeeds exactly when the products agree; the result
keeps the very same cell list (a view) with only the shape replaced, the
round trip reshape s then reshape back restores the array itself (hence
element-for-element equality, the cells being identical), and a product
mismatch yields a ValueError and no array. -/
theorem claim_C6_reshape (a : Arr) (s : List Nat) :
    ((∃ b, reshape a s = .ok b) ↔ get_size s = get_size a.shape) ∧
    (get_size s = get_size a.shape →
      reshape a s = .ok ⟨s, a.cells⟩ ∧
      (reshape a s).bind (fun b => reshape b a.shape) = .ok a) ∧
    (get_size s ≠ get_size a.shape → reshape a s = .error .valueError) := by
  refine ⟨⟨?_, ?_⟩, ?_, ?_⟩
  · intro ⟨b, hb⟩
    by_contra hne
    rw [reshape_err a s (fun he => hne he.symm)] at hb
    exact absurd hb (by simp)
  · intro he
    exact ⟨⟨s, a.cells⟩, reshape_ok a s he.symm⟩
  · intro he
    have h1 : reshape a s = .ok ⟨s, a.cells⟩ := reshape_ok a s he.symm
    refine ⟨h1, ?_⟩
    rw [h1]
    show reshape ⟨s, a.cells⟩ a.shape = .ok a
    rw [reshape_ok ⟨s, a.cells⟩ a.shape he]
  · intro hne
    exact reshape_err a s (fun he => hne he.symm)

theorem claim_C6_witness :
    reshape ⟨[2, 3], [0, 1, 2, 3, 4, 5]⟩ [6] = .ok ⟨[6], [0, 1, 2, 3, 4, 5]⟩ ∧
    (reshape ⟨[2, 3], [0, 1, 2, 3, 4, 5]⟩ [6]).bind (fun b => reshape b [2, 3])
      = .ok ⟨[2, 3], [0, 1, 2, 3, 4, 5]⟩ :=
  (claim_C6_reshape ⟨[2, 3], [0, 1, 2, 3, 4, 5]⟩ [6]).2.1 (by decide)

/-- Claim C8: the store-mutating fallible operations detect and report
their error before any mutation: a failing assignment and a failing
binary operator both return the store exactly as it was (every existing
cell's value intact, no allocation), and a failing assignment leaves every
cell readable at its old value. The remaining fallible operations of the
core (reshape, len, indexing, slicing, scalar conversion) do not touch
the store at all: their embeddings neither take nor return one, matching
the source methods that throw before constructing anything. -/
theorem claim_C8_error_atomicity (target rhs a b : Arr) (op : Op) (st : Store) :
    (∀ e, (assign target rhs st).1 = .error e → (assign target rhs st).2 = st) ∧
    (∀ e, (operator_impl a b op st).1 = .error e → (operator_impl a b op st).2 = st) ∧
    (∀ e, (assign target rhs st).1 = .error e →
      ∀ id, (assign target rhs st).2.get id = st.get id) := by
  refine ⟨?_, ?_, ?_⟩
  · intro e he
    rcases hbc : braodcast target.shape rhs.shape false target.cells rhs.cells
      with _ | ⟨lc, rc, sh⟩
    · rw [assign_err target rhs st hbc]
    · rw [assign_ok_run target rhs st lc rc sh hbc] at he
      exact absurd he (by simp)
  · intro e he
    rcases hbc : braodcast a.shape b.shape true a.cells b.cells with _ | ⟨lc, rc, sh⟩
    · rw [operator_impl_err a b op st hbc]
    · unfold operator_impl at he
      rw [hbc] at he
      exact absurd he (by simp)
  · intro e he id
    rcases hbc : braodcast target.shape rhs.shape false target.cells rhs.cells
      with _ | ⟨lc, rc, sh⟩
    · rw [assign_err target rhs st hbc]
    · rw [assign_ok_run target rhs st lc rc sh hbc] at he
      exact absurd he (by simp)

theorem claim_C8_witness :
    (assign ⟨[2], [0, 1]⟩ ⟨[3], [2, 3, 4]⟩ ⟨[5, 6, 7]⟩).2 = ⟨[5, 6, 7]⟩ :=
  (claim_C8_error_atomicity ⟨[2], [0, 1]⟩ ⟨[3], [2, 3, 4]⟩ ⟨[], []⟩ ⟨[], []⟩ .add
    ⟨[5, 6, 7]⟩).1 .valueError (by decide)

/-- Claim C9 counterexample: the claim says len on a rank-0 array fails
with an index error; the source throws Error of TypeError there ("scalar
type has no len()"), so at the concrete scalar the failure is a TypeError
and not an IndexError. -/
theorem claim_C9_counterexample :
    Arr.len ⟨[], [0]⟩ = .error .typeError ∧
    Arr.len ⟨[], [0]⟩ ≠ .error .indexError := by
  decide

/-- Claim C9 (amended): calling len on a rank-0 array always fails with a
type error. -/
theorem claim_C9_len_scalar (a : Arr) (h : a.shape.length = 0) :
    Arr.len a = .error .typeError := by
  unfold Arr.len
  rw [if_pos h]

theorem claim_C9_witness : Arr.len ⟨[], [0]⟩ = .error .typeError :=
  claim_C9_len_scalar ⟨[], [0]⟩ (by decide)

/-- Claim C10: a nested-literal construction whose sibling sub-arrays
disagree in shape does not throw (the constructor is total); it yields the
array with the empty shape and the empty cell sequence, so ndim and size
are both 0 and the shape is not the one-axis shape with entry 0. -/
theorem claim_C10_literal_mismatch (subs : List Arr)
    (hbad : ∃ x ∈ subs, ∃ y ∈ subs, x.shape ≠ y.shape) :
    ofList subs = ⟨[], []⟩ ∧ (ofList subs).ndim = 0 ∧ (ofList subs).size = 0 ∧
    (ofList subs).shape ≠ [0] := by
  have h := ofList_mismatch subs hbad
  refine ⟨h, ?_, ?_, ?_⟩
  · rw [h]
    rfl
  · rw [h]
    rfl
  · rw [h]
    simp

theorem claim_C10_witness :
    ofList [⟨[], [0]⟩, ⟨[1], [1]⟩] = ⟨[], []⟩ :=
  (claim_C10_literal_mismatch [⟨[], [0]⟩, ⟨[1], [1]⟩] (by decide)).1

/-- Claim C7 counterexample: the nested-literal constructor, fed two
sub-arrays (both produced by core constructors) that disagree in shape,
produces the rank-0 empty array, which violates
len(cells) == product(shape) since the product of the empty shape is 1
while the cell list is empty. -/
theorem claim_C7_counterexample :
    ofList [(scalar 0 ⟨[]⟩).1, (ofVals [7] (scalar 0 ⟨[]⟩).2).1] = ⟨[], []⟩ ∧
    (ofList [(scalar 0 ⟨[]⟩).1, (ofVals [7] (scalar 0 ⟨[]⟩).2).1]).cells.length
      ≠ get_size (ofList [(scalar 0 ⟨[]⟩).1, (ofVals [7] (scalar 0 ⟨[]⟩).2).1]).shape := by
  decide

/-- Claim C7 (amended): every operation of the core except the
nested-literal constructor's soft-failure paths preserves the invariant
len(cells) == product(shape) (with product of the empty shape 1):
arange, scalar, full, the flat literal, the default constructor, the
nested literal when the sibling shapes agree and the flattened data is
nonempty, indexing, slicing, reshape, astype and the binary operators;
and size() coincides with the cell count, so size() == product(shape())
exactly on such arrays. -/
theorem claim_C7_size_invariant :
    (∀ (n : Nat) (s : Int) (st : Store), ((arange n s st).1).Valid) ∧
    (∀ (v : Int) (st : Store), ((scalar v st).1).Valid) ∧
    (∀ (shape : List Nat) (v : Int) (st : Store), ((full shape v st).1).Valid) ∧
    (∀ (vals : List Int) (st : Store), ((ofVals vals st).1).Valid) ∧
    defaultArr.Valid ∧
    (∀ (subs : List Arr) (d : Nat) (sh : List Nat), get_shape subs = d :: sh →
      (∀ x ∈ subs, x.Valid) → flatten_data subs ≠ [] → (ofList subs).Valid) ∧
    (∀ (a : Arr) (i : Int) (sub : Arr), a.Valid → index a i = .ok sub → sub.Valid) ∧
    (∀ (a : Arr) (args : List Selector) (b : Arr), a.Valid → slice a args = .ok b →
      b.Valid) ∧
    (∀ (a : Arr) (s : List Nat) (b : Arr), a.Valid → reshape a s = .ok b → b.Valid) ∧
    (∀ (a : Arr) (st : Store), a.Valid → ((astype a st).1).Valid) ∧
    (∀ (a b : Arr) (op : Op) (st : Store) (c : Arr) (st2 : Store),
      a.Valid → b.Valid → st.ValidIn a → st.ValidIn b →
      operator_impl a b op st = (.ok c, st2) → c.Valid) ∧
    (∀ (a : Arr), a.Valid ↔ a.size = get_size a.shape) := by
  refine ⟨arange_valid, scalar_valid, full_valid, ofVals_valid, defaultArr_valid,
    ofList_valid_of, fun a i sub hv h => (index_valid a i sub hv h).1, slice_valid,
    reshape_valid, astype_valid, ?_, fun a => Iff.rfl⟩
  intro a b op st c st2 hva hvb hia hib h
  rcases hbc : braodcast a.shape b.shape true a.cells b.cells with _ | ⟨lc, rc, sh⟩
  · rw [operator_impl_err a b op st hbc] at h
    simp at h
  · obtain ⟨c2, st3, heq, hsh, hlen, _⟩ :=
      operator_impl_spec a b op st lc rc sh hva hvb hia hib hbc
    rw [heq] at h
    simp only [Prod.mk.injEq, Except.ok.injEq] at h
    rw [← h.1, Arr.Valid, hlen, hsh]

theorem claim_C7_witness : ((arange 3 0 ⟨[]⟩).1).Valid :=
  claim_C7_size_invariant.1 3 0 ⟨[]⟩

/-- Claim C5 counterexample: the claim says the range-slice result always
has shape [end-start] prepended to the sub-shape; on the shape [2, 3]
array, slicing with the empty range (1, 1) takes the early return with a
default-constructed array of shape [0] instead of the claimed [0, 3]. -/
theorem claim_C5_counterexample :
    slice ⟨[2, 3], [0, 1, 2, 3, 4, 5]⟩ [Selector.range 1 1] = .ok defaultArr ∧
    defaultArr.shape ≠ [0, 3] := by
  decide

/-- Claim C5 (amended): for a rank >= 1 array, a range (start, end) on the
leading axis and any remaining selector arguments within the rank budget,
slicing never raises a bounds error: the resolved begin is clamped below
by 0 and the resolved end above by the axis length, and the result is
built by indexing each position of the clamped range and recursively
slicing the remaining arguments. When the clamped range is nonempty and
the per-index sub-arrays (all sharing a sub-shape) have cells, the result
has shape count prepended to that sub-shape and its cells are the
in-order concatenation of the per-index sub-arrays' cells; every cell of
any slice result is one of the original array's cells (a view). When the
clamped range is empty, or the concatenated cells are empty, the result
is instead the default-constructed shape-[0] empty array. -/
theorem claim_C5_slice_range (a : Arr) (d : Nat) (tl : List Nat) (s e start stop : Int)
    (rest : List Selector) (b : Int → Arr) (subShape : List Nat)
    (hs : a.shape = d :: tl) (hrest : rest.length ≤ tl.length)
    (hstart : start = max 0 (if s < 0 then s + (d : Int) else s))
    (hstop : stop = min (d : Int) (if e < 0 then e + (d : Int) else e))
    (hsub : ∀ i : Int, start ≤ i → i < stop →
      slice_impl a (.idx i :: rest) = .ok (b i))
    (hshape : ∀ i : Int, start ≤ i → i < stop → (b i).shape = subShape) :
    (∃ c, slice a (.range s e :: rest) = .ok c) ∧
    (0 < (stop - start).toNat →
      ((List.range (stop - start).toNat).map
        fun k => (b (start + Int.ofNat k)).cells).flatten ≠ [] →
      slice a (.range s e :: rest) = .ok ⟨(stop - start).toNat :: subShape,
        ((List.range (stop - start).toNat).map
          fun k => (b (start + Int.ofNat k)).cells).flatten⟩) ∧
    ((stop - start).toNat = 0 ∨
      ((List.range (stop - start).toNat).map
        fun k => (b (start + Int.ofNat k)).cells).flatten = [] →
      slice a (.range s e :: rest) = .ok defaultArr) ∧
    (∀ c, slice a (.range s e :: rest) = .ok c → ∀ x ∈ c.cells, x ∈ a.cells) := by
  have hhead : a.shape.headD 0 = d := by rw [hs]; rfl
  have h0start : 0 ≤ start := by rw [hstart]; exact le_max_left _ _
  have hstople : stop ≤ (d : Int) := by rw [hstop]; exact min_le_left _ _
  have h1 : resolve_index a s false = .ok (if s < 0 then s + (d : Int) else s) :=
    resolve_index_noverify_ok a s d tl hs
  have h2 : resolve_index a e false = .ok (if e < 0 then e + (d : Int) else e) :=
    resolve_index_noverify_ok a e d tl hs
  have hidxs : ((List.range (min ((a.shape.headD 0 : Nat) : Int)
        (if e < 0 then e + (d : Int) else e)
        - max 0 (if s < 0 then s + (d : Int) else s)).toNat).map
      fun k => max 0 (if s < 0 then s + (d : Int) else s) + Int.ofNat k)
      = (List.range (stop - start).toNat).map fun k => start + Int.ofNat k := by
    rw [hhead, ← hstart, ← hstop]
  have hwrap : slice a (.range s e :: rest) = slice_impl a (.range s e :: rest) := by
    unfold slice
    rw [if_neg (by rw [hs]; simp only [List.length_cons]; omega)]
  have hmem : ∀ c, slice a (.range s e :: rest) = .ok c → ∀ x ∈ c.cells, x ∈ a.cells :=
    fun c hc => slice_mem a _ c hc
  have hbound : ∀ i ∈ (List.range (stop - start).toNat).map fun k => start + Int.ofNat k,
      start ≤ i ∧ i < stop := by
    intro i hi
    rw [List.mem_map] at hi
    obtain ⟨k, hk, rfl⟩ := hi
    rw [List.mem_range] at hk
    simp only [Int.ofNat_eq_coe]
    omega
  have hmap : ∀ i ∈ (List.range (stop - start).toNat).map fun k => start + Int.ofNat k,
      (match index a i with
        | Except.error er => (Except.error er : Except Err Arr)
        | Except.ok sub =>
          if rest.length > sub.shape.length then Except.error Err.indexError
          else slice_impl sub rest)
      = .ok (b i) := by
    intro i hi
    obtain ⟨hi1, hi2⟩ := hbound i hi
    have hstep := hsub i hi1 hi2
    rw [slice_impl] at hstep
    exact hstep
  have hEM : exceptMap (fun i =>
        match index a i with
        | Except.error er => Except.error er
        | Except.ok sub =>
          if rest.length > sub.shape.length then Except.error Err.indexError
          else slice_impl sub rest)
      ((List.range (min ((a.shape.headD 0 : Nat) : Int)
          (if e < 0 then e + (d : Int) else e)
          - max 0 (if s < 0 then s + (d : Int) else s)).toNat).map
        fun k => max 0 (if s < 0 then s + (d : Int) else s) + Int.ofNat k)
      = .ok (((List.range (stop - start).toNat).map fun k => start + Int.ofNat k).map b) := by
    rw [hidxs]
    exact exceptMap_map_ok _ _ _ hmap
  have hred := slice_impl_range_reduce a s e rest
    (if s < 0 then s + (d : Int) else s) (if e < 0 then e + (d : Int) else e)
    (((List.range (stop - start).toNat).map fun k => start + Int.ofNat k).map b)
    h1 h2 hEM
  by_cases hcnt : (stop - start).toNat = 0
  · have hslices : (((List.range (stop - start).toNat).map fun k => start + Int.ofNat k).map b)
        = [] := by
      rw [hcnt]
      rfl
    rw [hslices] at hred
    have hfin : slice a (.range s e :: rest) = .ok defaultArr := by
      rw [hwrap]
      exact hred
    refine ⟨⟨defaultArr, hfin⟩, ?_, fun _ => hfin, hmem⟩
    intro hpos _
    omega
  · have hcntpos : 0 < (stop - start).toNat := Nat.pos_of_ne_zero hcnt
    have hslen : ((((List.range (stop - start).toNat).map fun k => start + Int.ofNat k).map b)).length
        = (stop - start).toNat := by
      rw [List.length_map, List.length_map, List.length_range]
    have hne : (((List.range (stop - start).toNat).map fun k => start + Int.ofNat k).map b)
        ≠ [] := by
      intro hnil
      rw [hnil] at hslen
      simp at hslen
      omega
    have hall : ∀ x ∈ (((List.range (stop - start).toNat).map fun k => start + Int.ofNat k).map b),
        x.shape = subShape := by
      intro x hx
      rw [List.mem_map] at hx
      obtain ⟨i, hi, rfl⟩ := hx
      obtain ⟨hi1, hi2⟩ := hbound i hi
      exact hshape i hi1 hi2
    obtain ⟨y, ys, hyys⟩ := List.exists_cons_of_ne_nil hne
    have hy : y.shape = subShape := hall y (by rw [hyys]; exact List.mem_cons_self _ _)
    have hgs : get_shape (((List.range (stop - start).toNat).map fun k => start + Int.ofNat k).map b)
        = (stop - start).toNat :: subShape := by
      have hstep := get_shape_of_all y ys (by
        intro x hx
        rw [← hyys] at hx
        rw [hall x hx, hy])
      rw [← hyys] at hstep
      rw [hstep, hslen, hy]
    have hfd : flatten_data (((List.range (stop - start).toNat).map
          fun k => start + Int.ofNat k).map b)
        = ((List.range (stop - start).toNat).map
            fun k => (b (start + Int.ofNat k)).cells).flatten := by
      rw [flatten_data, List.map_map, List.map_map]
      rfl
    by_cases hfl : ((List.range (stop - start).toNat).map
        fun k => (b (start + Int.ofNat k)).cells).flatten = []
    · have hfl2 : flatten_data (((List.range (stop - start).toNat).map
            fun k => start + Int.ofNat k).map b) = [] := by
        rw [hfd]
        exact hfl
      rw [hgs, hfl2] at hred
      have hfin : slice a (.range s e :: rest) = .ok defaultArr := by
        rw [hwrap]
        exact hred
      refine ⟨⟨defaultArr, hfin⟩, ?_, fun _ => hfin, hmem⟩
      intro _ hflne
      exact absurd hfl hflne
    · have hfdne2 : flatten_data (((List.range (stop - start).toNat).map
            fun k => start + Int.ofNat k).map b) ≠ [] := by
        rw [hfd]
        exact hfl
      obtain ⟨cc, cs, hccs⟩ := List.exists_cons_of_ne_nil hfdne2
      rw [hgs, hccs] at hred
      have hfin0 : slice_impl a (.range s e :: rest)
          = .ok ⟨(stop - start).toNat :: subShape, cc :: cs⟩ := hred
      rw [← hccs, hfd] at hfin0
      have hfin : slice a (.range s e :: rest)
          = .ok ⟨(stop - start).toNat :: subShape,
            ((List.range (stop - start).toNat).map
              fun k => (b (start + Int.ofNat k)).cells).flatten⟩ := by
        rw [hwrap]
        exact hfin0
      refine ⟨⟨_, hfin⟩, fun _ _ => hfin, ?_, hmem⟩
      intro hdisj
      rcases hdisj with hdisj | hdisj
      · exact absurd hdisj hcnt
      · exact absurd hdisj hfl

theorem claim_C5_witness :
    slice ⟨[4, 1, 5], [0, 1, 2, 3, 4, 5, 6, 7, 8, 9, 10, 11, 12, 13, 14, 15, 16, 17, 18, 19]⟩
        [Selector.range 1 4, Selector.idx 0, Selector.range 2 5]
      = .ok ⟨((4 : Int) - 1).toNat :: [3],
        ((List.range ((4 : Int) - 1).toNat).map fun k =>
          ((fun i : Int =>
            (⟨[3], [i.toNat * 5 + 2, i.toNat * 5 + 3, i.toNat * 5 + 4]⟩ : Arr))
            ((1 : Int) + Int.ofNat k)).cells).flatten⟩ :=
  (claim_C5_slice_range
    ⟨[4, 1, 5], [0, 1, 2, 3, 4, 5, 6, 7, 8, 9, 10, 11, 12, 13, 14, 15, 16, 17, 18, 19]⟩
    4 [1, 5] 1 4 1 4 [Selector.idx 0, Selector.range 2 5]
    (fun i => ⟨[3], [i.toNat * 5 + 2, i.toNat * 5 + 3, i.toNat * 5 + 4]⟩) [3]
    rfl (by decide) (by decide) (by decide)
    (fun i h1 h2 => by
      have hcases : i = 1 ∨ i = 2 ∨ i = 3 := by omega
      rcases hcases with rfl | rfl | rfl <;> decide)
    (fun i h1 h2 => rfl)).2.1 (by decide) (by decide)

end NdArray
